import Mathlib

/-!
Verification of the snapshot-reconciliation pipeline of `indexer.py`.

A snapshot is a Python dict mapping a fingerprint (a content hash) to the
list of paths that hold that content.  Python dicts preserve insertion
order and have unique keys; we embed them as association lists, carrying a
key-uniqueness hypothesis in the statements that need it.  Because dict
keys are unique, each `for sha in d: ... d2[sha].append(path) / d2[sha] = v`
rebuild loop in the source visits every key exactly once, so it is embedded
as a `filterMap` over the association list.  The two accumulations that are
keyed by *path* (`reverse_index` and `content_changes`), where Python's
overwrite-on-assignment semantics can matter, are embedded by a literal
fold over the nested write loop with an overwriting `dictSet`.
-/

/-- A fingerprint-to-paths mapping (a Python dict in the source). -/
abbrev Snapshot := List (String × List String)

/-- Keys of an association list, in insertion order. -/
def keysOf {α : Type} (l : List (String × α)) : List String :=
  l.map Prod.fst

/-- All paths of a snapshot, in iteration order. -/
def pathsOf (s : Snapshot) : List String :=
  (s.map Prod.snd).flatten

/-- Python dict assignment `d[k] = v`: overwrite in place if the key exists
(keeping its position), otherwise append a new binding at the end. -/
def dictSet {α : Type} (d : List (String × α)) (k : String) (v : α) : List (String × α) :=
  match d with
  | [] => [(k, v)]
  | (k', v') :: rest => if k' = k then (k', v) :: rest else (k', v') :: dictSet rest k v

/-- The nested write loop `for sha in s: for path in s[sha]: d[path] = g sha path`
(skipping the write when `g` yields `none`), used by `reverse_index` and by
the `content_changes` accumulation in `strip_content_changes`. -/
def writeFold {β : Type} (s : Snapshot) (g : String → String → Option β) : List (String × β) :=
  s.foldl (fun acc e => e.2.foldl (fun a p =>
    match g e.1 p with
    | some v => dictSet a p v
    | none => a) acc) []

/-- `reverse_index` from indexer.py: path -> sha, last write wins. -/
def reverse_index (index : Snapshot) : List (String × String) :=
  writeFold index (fun sha _ => some sha)

/-- `sha in s and p in s[sha]` for a snapshot `s`. -/
def memSnap (s : Snapshot) (sha p : String) : Bool :=
  match s.lookup sha with
  | some ps => decide (p ∈ ps)
  | none => false

/-- The dict-rebuild pattern shared by all strip stages: keep, per entry, the
paths satisfying `keep`, and drop the fingerprint entirely when no path of
its list is kept (the source only creates a key once a first path is kept). -/
def rebuild (s : Snapshot) (keep : (String × List String) → String → Bool) : Snapshot :=
  s.filterMap fun e =>
    if (e.2.filter (keep e)).isEmpty then none else some (e.1, e.2.filter (keep e))

/-- `strip_unchanged` from indexer.py: drop every sha/path pair present in
both snapshots; keys whose whole list is dropped disappear. -/
def strip_unchanged (current old : Snapshot) : Snapshot × Snapshot :=
  (rebuild current (fun e x => ! memSnap old e.1 x),
   rebuild old (fun e x => ! memSnap current e.1 x))

/-- The `content_changes` dict accumulated inside `strip_content_changes`:
iterating the old residual, a path that the reverse index of the current
residual maps to a different sha is written as `path -> (old sha, new sha)`. -/
def ccOf (current old : Snapshot) : List (String × String × String) :=
  writeFold old (fun sha p =>
    match (reverse_index current).lookup p with
    | some sha2 => if sha ≠ sha2 then some (sha, sha2) else none
    | none => none)

/-- `strip_content_changes` from indexer.py: a path present in the old
residual under one sha and in the current residual (via the reverse index)
under a different sha is recorded as a content change `path -> (old sha,
new sha)` and removed from both residuals. -/
def strip_content_changes (current old : Snapshot) :
    Snapshot × Snapshot × List (String × String × String) :=
  (rebuild current (fun _ p => ((ccOf current old).lookup p).isNone),
   rebuild old (fun _ p => ((ccOf current old).lookup p).isNone),
   ccOf current old)

/-- The `moves` dict built by `strip_moves`: for a sha present in both
residuals, the i-th old path is paired with the i-th current path for
`i < min` of the two lengths (`old[sha][i]` / `current[sha][i]` in the
source, i.e. a zip of the two `take min` prefixes); no entry is created
when the loop body never runs (`min = 0`). -/
def movesOf (current old : Snapshot) : List (String × List (String × String)) :=
  old.filterMap fun e =>
    match current.lookup e.1 with
    | some cps =>
      if min e.2.length cps.length = 0 then none
      else some (e.1, (e.2.take (min e.2.length cps.length)).zip
        (cps.take (min e.2.length cps.length)))
    | none => none

/-- `strip_moves` from indexer.py: build the positional pairing `movesOf`,
then drop the paired paths (the per-sha skiplists, i.e. the `take min`
prefixes) from both residuals during the rebuild. -/
def strip_moves (current old : Snapshot) :
    Snapshot × Snapshot × List (String × List (String × String)) :=
  (rebuild current (fun e p =>
      match old.lookup e.1 with
      | some ops => decide (p ∉ e.2.take (min ops.length e.2.length))
      | none => true),
   rebuild old (fun e p =>
      match current.lookup e.1 with
      | some cps => decide (p ∉ e.2.take (min e.2.length cps.length))
      | none => true),
   movesOf current old)

/-- `strip_removal` from indexer.py: every sha of the old residual that is
absent from the current residual moves, with all its paths, into
`removals`; the current residual is returned untouched. -/
def strip_removal (current old : Snapshot) : Snapshot × Snapshot × Snapshot :=
  (current,
   rebuild old (fun e _ => (current.lookup e.1).isSome),
   rebuild old (fun e _ => (current.lookup e.1).isNone))

/-- The data printed just before the `assert False` in `strip_copy_or_new`:
the offending sha together with `current[sha]` and `old[sha]`. -/
structure AssertInfo where
  sha : String
  currentPaths : List String
  oldPaths : List String
deriving DecidableEq, Repr

/-- The two ways stage 5 aborts the run: the explicit `assert False`
reached after its diagnostic print, and the `IndexError` raised by the
indexing `old_orig[sha][0]` when the pristine baseline maps `sha` to an
empty path list while the residual still lists a path for it. -/
inductive Stage5Error where
  | assertFailure (info : AssertInfo)
  | indexError (sha : String)
deriving DecidableEq, Repr

/-- What goes wrong (if anything) while stage 5 processes one entry of the
current residual, following the source's evaluation order: a sha also
present in the old residual reaches `assert False` after printing the sha
and both path lists; otherwise, a sha whose pristine `old_orig` path list
is empty raises `IndexError` at `old_orig[sha][0]` as soon as its
(non-empty) residual path loop runs.  `none` means the entry is processed
without incident. -/
def stage5Trigger (old old_orig : Snapshot) (e : String × List String) :
    Option Stage5Error :=
  match old.lookup e.1 with
  | some ops => some (.assertFailure ⟨e.1, e.2, ops⟩)
  | none =>
    match old_orig.lookup e.1 with
    | some [] => if e.2.isEmpty then none else some (.indexError e.1)
    | _ => none

/-- The `copies` dict built by `strip_copy_or_new`: a sha of the current
residual whose fingerprint exists in the pristine `old_orig` is a copy with
source `old_orig[sha][0]` and all its residual paths as destinations; no
entry is created when the path loop never runs.  The Python indexing
`old_orig[sha][0]` raises `IndexError` when `old_orig[sha]` is the empty
list; that abort is modelled explicitly by `stage5Trigger` inside
`strip_copy_or_new`, so the `headD ""` below is only reached in an `.ok`
result when `old_orig[sha]` is non-empty, where it equals the Python
value. -/
def copiesOf (current old_orig : Snapshot) : List (String × String × List String) :=
  current.filterMap fun e =>
    match old_orig.lookup e.1 with
    | some ops => if e.2.isEmpty then none else some (e.1, ops.headD "", e.2)
    | none => none

/-- The `new` dict built by `strip_copy_or_new`: a sha of the current
residual with no trace in the pristine `old_orig` is new, with the whole
residual path list assigned (`new[sha] = current[sha]`). -/
def newOf (current old_orig : Snapshot) : Snapshot :=
  current.filterMap fun e =>
    if (old_orig.lookup e.1).isNone then some e else none

/-- `strip_copy_or_new` from indexer.py.  Iterating over the current
residual, the first entry whose processing aborts — by the `assert False`
branch when its sha is also in the old residual (after printing the sha
and both path lists), or by the `IndexError` at `old_orig[sha][0]` when
its pristine path list is empty — stops the run; `Except.error` carries
whichever of the two aborts fires first in iteration order.  Otherwise the
rebuild drops every path recorded in `new` or in the destination list of
`copies`, and the old residual is returned as-is. -/
def strip_copy_or_new (current old old_orig : Snapshot) :
    Except Stage5Error (Snapshot × Snapshot × List (String × String × List String) × Snapshot) :=
  match current.findSome? (stage5Trigger old old_orig) with
  | some err => .error err
  | none =>
    .ok (rebuild current (fun e p =>
      ! (decide (p ∈ ((newOf current old_orig).lookup e.1).getD []) ||
         decide (p ∈ (((copiesOf current old_orig).lookup e.1).map Prod.snd).getD []))),
      old, copiesOf current old_orig, newOf current old_orig)

/-- The `ChangeDescription` class from indexer.py. -/
structure ChangeDescription where
  current_stripped : Snapshot := []
  old_stripped : Snapshot := []
  content_changes : List (String × String × String) := []
  moves : List (String × List (String × String)) := []
  removals : Snapshot := []
  copies : List (String × String × List String) := []
  new : Snapshot := []
deriving DecidableEq, Repr

/-- `strip` from indexer.py: the five stages chained over the shrinking
residuals, the pristine `old` being passed to the last stage. -/
def strip (current old : Snapshot) : Except Stage5Error ChangeDescription :=
  let s1 := strip_unchanged current old
  let s2 := strip_content_changes s1.1 s1.2
  let s3 := strip_moves s2.1 s2.2.1
  let s4 := strip_removal s3.1 s3.2.1
  match strip_copy_or_new s4.1 s4.2.1 old with
  | .error info => .error info
  | .ok r =>
    .ok { current_stripped := r.1, old_stripped := r.2.1,
          content_changes := s2.2.2, moves := s3.2.2,
          removals := s4.2.2, copies := r.2.2.1, new := r.2.2.2 }

/-- The current residual after stage 1 of `strip`. -/
def cur1 (current old : Snapshot) : Snapshot := (strip_unchanged current old).1

/-- The old residual after stage 1 of `strip`. -/
def old1 (current old : Snapshot) : Snapshot := (strip_unchanged current old).2

/-- The content changes recorded in stage 2 of `strip`. -/
def cc12 (current old : Snapshot) : List (String × String × String) :=
  ccOf (cur1 current old) (old1 current old)

/-- The current residual after stage 2 of `strip`. -/
def cur2 (current old : Snapshot) : Snapshot :=
  (strip_content_changes (cur1 current old) (old1 current old)).1

/-- The old residual after stage 2 of `strip`. -/
def old2 (current old : Snapshot) : Snapshot :=
  (strip_content_changes (cur1 current old) (old1 current old)).2.1

/-- The moves recorded in stage 3 of `strip`. -/
def mv3 (current old : Snapshot) : List (String × List (String × String)) :=
  movesOf (cur2 current old) (old2 current old)

/-- The current residual after stage 3 of `strip`. -/
def cur3 (current old : Snapshot) : Snapshot :=
  (strip_moves (cur2 current old) (old2 current old)).1

/-- The old residual after stage 3 of `strip`. -/
def old3 (current old : Snapshot) : Snapshot :=
  (strip_moves (cur2 current old) (old2 current old)).2.1

/-- The removals recorded in stage 4 of `strip`. -/
def rm4 (current old : Snapshot) : Snapshot :=
  (strip_removal (cur3 current old) (old3 current old)).2.2

/-- The current residual after stage 4 of `strip` (unchanged by stage 4):
the current-side snapshot handed to `strip_copy_or_new`. -/
def cur4 (current old : Snapshot) : Snapshot :=
  (strip_removal (cur3 current old) (old3 current old)).1

/-- The old residual after stage 4 of `strip`: the old-side snapshot handed
to `strip_copy_or_new`. -/
def old4 (current old : Snapshot) : Snapshot :=
  (strip_removal (cur3 current old) (old3 current old)).2.1

/-- Python's `", ".join`. -/
def joinComma (l : List String) : String :=
  String.intercalate ", " l

/-- The move lines printed by `compare`. -/
def renderMoves (mv : List (String × List (String × String))) : List String :=
  mv.flatMap fun e => e.2.map fun pr => "File " ++ pr.1 ++ " moved to " ++ pr.2 ++ "."

/-- The content-change lines printed by `compare`. -/
def renderContentChanges (cc : List (String × String × String)) : List String :=
  cc.map fun e => "File " ++ e.1 ++ " changed its contents."

/-- The removal lines printed by `compare`: classified against the original
(un-stripped) `current` snapshot, a removal whose sha still exists there is
a duplicate removal naming the surviving path(s); otherwise it is a plain
removal. -/
def renderRemovals (current : Snapshot) (rm : Snapshot) : List String :=
  rm.flatMap fun e => e.2.map fun p =>
    match current.lookup e.1 with
    | some cs =>
      if cs.length = 1 then
        "Duplicated file " ++ p ++ " was removed. Its copy exists at " ++ cs.headD ""
      else
        "Duplicated file " ++ p ++ " was removed. Its copies exist at " ++ joinComma cs
    | none => "File " ++ p ++ " was removed."

/-- The new-file lines printed by `compare`. -/
def renderNew (nw : Snapshot) : List String :=
  nw.flatMap fun e => e.2.map fun p => "File " ++ p ++ " is new."

/-- The copy lines printed by `compare`. -/
def renderCopies (cp : List (String × String × List String)) : List String :=
  cp.flatMap fun e => e.2.2.map fun p => "File " ++ e.2.1 ++ " was copied to " ++ p ++ "."

/-- All lines printed by `compare`, in the source's fixed order: moves,
content changes, removals, new files, copies. -/
def renderReport (current : Snapshot) (d : ChangeDescription) : List String :=
  renderMoves d.moves ++ renderContentChanges d.content_changes ++
    renderRemovals current d.removals ++ renderNew d.new ++ renderCopies d.copies

/-- `compare` from indexer.py (renamed: `compare` is taken by the `Ord`
method): run `strip`, print the report, return the change description
(here: the printed lines together with the result). -/
def compareSnapshots (current old : Snapshot) :
    Except Stage5Error (List String × ChangeDescription) :=
  match strip current old with
  | .error info => .error info
  | .ok d => .ok (renderReport current d, d)

/-- A path silently stripped in stage 1: present under the same fingerprint
in both input snapshots. -/
def unchangedIn (current old : Snapshot) (p : String) : Bool :=
  old.any fun e => decide (p ∈ e.2) && memSnap current e.1 p

/-- A path reported in `content_changes`. -/
def inContentChanges (d : ChangeDescription) (p : String) : Bool :=
  d.content_changes.any fun e => e.1 = p

/-- A path reported in `moves`, on either side of a pair. -/
def inMoves (d : ChangeDescription) (p : String) : Bool :=
  d.moves.any fun e => e.2.any fun pr => pr.1 = p || pr.2 = p

/-- A path reported in `removals`. -/
def inRemovals (d : ChangeDescription) (p : String) : Bool :=
  d.removals.any fun e => decide (p ∈ e.2)

/-- A path reported as a copy destination. -/
def inCopies (d : ChangeDescription) (p : String) : Bool :=
  d.copies.any fun e => decide (p ∈ e.2.2)

/-- A path reported in `new`. -/
def inNew (d : ChangeDescription) (p : String) : Bool :=
  d.new.any fun e => decide (p ∈ e.2)

/-- How many of the six categories claim the path. -/
def categoryCount (current old : Snapshot) (d : ChangeDescription) (p : String) : Nat :=
  [unchangedIn current old p, inContentChanges d p, inMoves d p,
   inRemovals d p, inCopies d p, inNew d p].count true

/-! ### Association-list basics -/

theorem mem_keysOf {α : Type} {l : List (String × α)} {k : String} :
    k ∈ keysOf l ↔ ∃ v, (k, v) ∈ l := by
  constructor
  · intro h
    obtain ⟨⟨k', v⟩, he, hk⟩ := List.mem_map.mp h
    subst hk
    exact ⟨v, he⟩
  · rintro ⟨v, hv⟩
    exact List.mem_map.mpr ⟨(k, v), hv, rfl⟩

theorem lookup_isSome_iff {α : Type} (l : List (String × α)) (k : String) :
    (l.lookup k).isSome = true ↔ k ∈ keysOf l := by
  induction l with
  | nil => simp [keysOf]
  | cons e t ih =>
    obtain ⟨k', v⟩ := e
    by_cases h : k = k'
    · subst h
      simp [List.lookup_cons, keysOf]
    · rw [List.lookup_cons]
      have hb : (k == k') = false := beq_eq_false_iff_ne.mpr h
      rw [hb]
      simp only [keysOf, List.map_cons, List.mem_cons]
      rw [ih]
      simp [keysOf, h]

theorem lookup_eq_none_iff {α : Type} (l : List (String × α)) (k : String) :
    l.lookup k = none ↔ k ∉ keysOf l := by
  rw [← lookup_isSome_iff]
  cases l.lookup k <;> simp

theorem lookup_mem {α : Type} {l : List (String × α)} {k : String} {v : α}
    (h : l.lookup k = some v) : (k, v) ∈ l := by
  induction l with
  | nil => simp at h
  | cons e t ih =>
    obtain ⟨k', v'⟩ := e
    rw [List.lookup_cons] at h
    by_cases hk : k = k'
    · subst hk
      rw [beq_self_eq_true] at h
      simp only at h
      cases h
      exact List.mem_cons_self _ _
    · rw [beq_eq_false_iff_ne.mpr hk] at h
      simp only at h
      exact List.mem_cons_of_mem _ (ih h)

theorem mem_lookup_nodup {α : Type} {l : List (String × α)} {k : String} {v : α}
    (hnd : (keysOf l).Nodup) (h : (k, v) ∈ l) : l.lookup k = some v := by
  induction l with
  | nil => simp at h
  | cons e t ih =>
    obtain ⟨k', v'⟩ := e
    rw [keysOf] at hnd
    simp only [List.map_cons, List.nodup_cons] at hnd
    rcases List.mem_cons.mp h with h1 | h2
    · cases h1
      simp [List.lookup_cons]
    · have hk : k ≠ k' := by
        intro hkk
        subst hkk
        exact hnd.1 (List.mem_map.mpr ⟨(k, v), h2, rfl⟩)
      rw [List.lookup_cons, beq_eq_false_iff_ne.mpr hk]
      exact ih hnd.2 h2

theorem mem_pathsOf {s : Snapshot} {p : String} :
    p ∈ pathsOf s ↔ ∃ e ∈ s, p ∈ e.2 := by
  rw [pathsOf]
  simp only [List.mem_flatten, List.mem_map]
  constructor
  · rintro ⟨l, ⟨e, he, rfl⟩, hp⟩
    exact ⟨e, he, hp⟩
  · rintro ⟨e, he, hp⟩
    exact ⟨e.2, ⟨e, he, rfl⟩, hp⟩

theorem mem_pathsOf_of_mem {s : Snapshot} {e : String × List String} {p : String}
    (he : e ∈ s) (hp : p ∈ e.2) : p ∈ pathsOf s :=
  mem_pathsOf.mpr ⟨e, he, hp⟩

theorem entry_unique {s : Snapshot} (hnd : (pathsOf s).Nodup)
    {e e' : String × List String} (he : e ∈ s) (he' : e' ∈ s) {p : String}
    (hp : p ∈ e.2) (hp' : p ∈ e'.2) : e = e' := by
  induction s with
  | nil => simp at he
  | cons a t ih =>
    rw [pathsOf] at hnd
    simp only [List.map_cons, List.flatten_cons] at hnd
    have hdisj : a.2.Disjoint (pathsOf t) := by
      have := List.disjoint_of_nodup_append hnd
      simpa [pathsOf] using this
    have h2 : (pathsOf t).Nodup := by
      have := (List.nodup_append.mp hnd).2.1
      simpa [pathsOf] using this
    rcases List.mem_cons.mp he with he0 | he1
    · rcases List.mem_cons.mp he' with he0' | he1'
      · rw [he0, he0']
      · exact absurd (mem_pathsOf_of_mem he1' hp') (fun hmem => hdisj (he0 ▸ hp) hmem)
    · rcases List.mem_cons.mp he' with he0' | he1'
      · exact absurd (mem_pathsOf_of_mem he1 hp) (fun hmem => hdisj (he0' ▸ hp') hmem)
      · exact ih h2 he1 he1'

/-! ### Properties of the rebuild pattern -/

theorem mem_rebuild_iff {s : Snapshot} {keep : (String × List String) → String → Bool}
    {e' : String × List String} :
    e' ∈ rebuild s keep ↔
      ∃ e ∈ s, e'.1 = e.1 ∧ e'.2 = e.2.filter (keep e) ∧ e'.2 ≠ [] := by
  rw [rebuild]
  simp only [List.mem_filterMap]
  constructor
  · rintro ⟨e, he, hf⟩
    split at hf
    · exact absurd hf (by simp)
    · next hemp =>
      cases hf
      refine ⟨e, he, rfl, rfl, ?_⟩
      simpa [List.isEmpty_iff] using hemp
  · rintro ⟨e, he, h1, h2, h3⟩
    refine ⟨e, he, ?_⟩
    rw [if_neg (by rw [← h2]; simpa [List.isEmpty_iff] using h3)]
    obtain ⟨k, v⟩ := e'
    simp only at h1 h2
    rw [h1, h2]

theorem rebuild_nonempty {s : Snapshot} {keep : (String × List String) → String → Bool}
    {e' : String × List String} (h : e' ∈ rebuild s keep) : e'.2 ≠ [] := by
  obtain ⟨e, _, _, _, h3⟩ := mem_rebuild_iff.mp h
  exact h3

theorem pathsOf_cons (e : String × List String) (s : Snapshot) :
    pathsOf (e :: s) = e.2 ++ pathsOf s := rfl

theorem keysOf_filterMap_sublist {α β : Type} (s : List (String × α))
    (f : (String × α) → Option (String × β))
    (hf : ∀ e e', f e = some e' → e'.1 = e.1) :
    List.Sublist (keysOf (s.filterMap f)) (keysOf s) := by
  induction s with
  | nil => simp [keysOf]
  | cons a t ih =>
    rw [List.filterMap_cons]
    cases hfa : f a with
    | none => exact ih.trans (List.sublist_cons_self _ _)
    | some e' =>
      have : keysOf (e' :: t.filterMap f) = e'.1 :: keysOf (t.filterMap f) := rfl
      rw [this, hf a e' hfa]
      exact ih.cons₂ a.1

theorem keysOf_rebuild_sublist (s : Snapshot) (keep : (String × List String) → String → Bool) :
    List.Sublist (keysOf (rebuild s keep)) (keysOf s) := by
  apply keysOf_filterMap_sublist
  intro e e' hf
  split at hf
  · exact absurd hf (by simp)
  · cases hf
    rfl

theorem pathsOf_rebuild_sublist (s : Snapshot) (keep : (String × List String) → String → Bool) :
    List.Sublist (pathsOf (rebuild s keep)) (pathsOf s) := by
  induction s with
  | nil => simp [rebuild, pathsOf]
  | cons a t ih =>
    simp only [rebuild, List.filterMap_cons]
    rw [pathsOf_cons]
    have ih' : List.Sublist (pathsOf (rebuild t keep)) (pathsOf t) := ih
    cases hfa : (if (a.2.filter (keep a)).isEmpty = true then none
        else some (a.1, a.2.filter (keep a))) with
    | none => exact ih'.trans (List.sublist_append_right _ _)
    | some b =>
      rw [pathsOf_cons]
      have hb : b = (a.1, a.2.filter (keep a)) := by
        by_cases hemp : (a.2.filter (keep a)).isEmpty
        · rw [if_pos hemp] at hfa
          cases hfa
        · rw [if_neg hemp] at hfa
          cases hfa
          rfl
      rw [hb]
      exact List.Sublist.append (List.filter_sublist a.2) ih'

theorem rebuild_lookup_none {s : Snapshot} {keep : (String × List String) → String → Bool}
    {sha : String} (h : s.lookup sha = none) : (rebuild s keep).lookup sha = none := by
  rw [lookup_eq_none_iff] at h ⊢
  intro hmem
  exact h ((keysOf_rebuild_sublist s keep).mem hmem)

theorem rebuild_lookup_some {s : Snapshot} {keep : (String × List String) → String → Bool}
    {sha : String} {ps : List String}
    (hnd : (keysOf s).Nodup) (h : s.lookup sha = some ps) :
    (rebuild s keep).lookup sha =
      (if (ps.filter (keep (sha, ps))).isEmpty then none
       else some (ps.filter (keep (sha, ps)))) := by
  have hmem : (sha, ps) ∈ s := lookup_mem h
  by_cases hemp : (ps.filter (keep (sha, ps))).isEmpty
  · rw [if_pos hemp, lookup_eq_none_iff]
    intro hk
    obtain ⟨v, hv⟩ := mem_keysOf.mp hk
    obtain ⟨e, he, h1, h2, h3⟩ := mem_rebuild_iff.mp hv
    simp only at h1 h2 h3
    have hle : s.lookup e.1 = some e.2 := mem_lookup_nodup hnd he
    rw [← h1, h] at hle
    cases hle
    have he2 : e = (sha, e.2) := by
      obtain ⟨k, vv⟩ := e
      simp only at h1
      rw [h1]
    rw [he2] at h2
    rw [h2] at h3
    exact h3 (by simpa [List.isEmpty_iff] using hemp)
  · rw [if_neg hemp]
    apply mem_lookup_nodup ((keysOf_rebuild_sublist s keep).nodup hnd)
    exact mem_rebuild_iff.mpr ⟨(sha, ps), hmem, rfl, rfl,
      by simpa [List.isEmpty_iff] using hemp⟩

theorem mem_pathsOf_rebuild {s : Snapshot} {keep : (String × List String) → String → Bool}
    {p : String} :
    p ∈ pathsOf (rebuild s keep) ↔ ∃ e ∈ s, p ∈ e.2 ∧ keep e p = true := by
  rw [mem_pathsOf]
  constructor
  · rintro ⟨e', he', hp⟩
    obtain ⟨e, he, h1, h2, h3⟩ := mem_rebuild_iff.mp he'
    rw [h2] at hp
    exact ⟨e, he, (List.mem_filter.mp hp).1, (List.mem_filter.mp hp).2⟩
  · rintro ⟨e, he, hp, hk⟩
    have hmemf : p ∈ e.2.filter (keep e) := List.mem_filter.mpr ⟨hp, hk⟩
    refine ⟨(e.1, e.2.filter (keep e)), ?_, hmemf⟩
    apply mem_rebuild_iff.mpr
    refine ⟨e, he, rfl, rfl, ?_⟩
    intro hnil
    have hnil' : List.filter (keep e) e.2 = [] := hnil
    rw [hnil'] at hmemf
    simp at hmemf

/-! ### Properties of the overwrite-fold pattern -/

theorem dictSet_fresh {α : Type} {d : List (String × α)} {k : String} (v : α)
    (h : k ∉ keysOf d) : dictSet d k v = d ++ [(k, v)] := by
  induction d with
  | nil => rfl
  | cons e t ih =>
    obtain ⟨k', v'⟩ := e
    rw [keysOf] at h
    simp only [List.map_cons, List.mem_cons] at h
    push_neg at h
    rw [dictSet, if_neg (fun hk => h.1 hk.symm), List.cons_append, ih h.2]

theorem foldl_write_inner {β : Type} (g : String → String → Option β) (sha : String)
    (ps : List String) (acc : List (String × β))
    (hnd : ps.Nodup) (hfresh : ∀ p ∈ ps, p ∉ keysOf acc) :
    ps.foldl (fun a p => match g sha p with | some v => dictSet a p v | none => a) acc =
      acc ++ ps.filterMap (fun p => (g sha p).map (fun v => (p, v))) := by
  induction ps generalizing acc with
  | nil => simp
  | cons p t ih =>
    rw [List.foldl_cons, List.filterMap_cons]
    have hndt : t.Nodup := (List.nodup_cons.mp hnd).2
    have hpt : p ∉ t := (List.nodup_cons.mp hnd).1
    cases hg : g sha p with
    | none =>
      simp only [hg]
      rw [ih acc hndt (fun q hq => hfresh q (List.mem_cons_of_mem _ hq))]
      simp [hg]
    | some v =>
      simp only [hg]
      rw [dictSet_fresh v (hfresh p (List.mem_cons_self _ _))]
      have hfresh2 : ∀ q ∈ t, q ∉ keysOf (acc ++ [(p, v)]) := by
        intro q hq
        rw [keysOf, List.map_append, List.mem_append]
        push_neg
        refine ⟨hfresh q (List.mem_cons_of_mem _ hq), ?_⟩
        simp only [List.map_cons, List.map_nil, List.mem_singleton]
        exact fun h => hpt (h ▸ hq)
      rw [ih (acc ++ [(p, v)]) hndt hfresh2, List.append_assoc]
      simp [hg]

theorem keysOf_entry_writes {β : Type} (g0 : String → Option β) (ps : List String) :
    List.Sublist (keysOf (ps.filterMap (fun p => (g0 p).map (fun v => (p, v))))) ps := by
  induction ps with
  | nil => simp [keysOf]
  | cons p t ih =>
    simp only [List.filterMap_cons]
    cases hg : g0 p with
    | none =>
      simp only [hg, Option.map_none']
      exact ih.trans (List.sublist_cons_self _ _)
    | some v =>
      simp only [hg, Option.map_some']
      exact ih.cons₂ p

theorem writeFold_go {β : Type} (g : String → String → Option β) (s : Snapshot)
    (acc : List (String × β))
    (hnd : (pathsOf s).Nodup) (hfresh : ∀ p ∈ pathsOf s, p ∉ keysOf acc) :
    s.foldl (fun acc e => e.2.foldl (fun a p =>
        match g e.1 p with
        | some v => dictSet a p v
        | none => a) acc) acc =
      acc ++ s.flatMap (fun e => e.2.filterMap (fun p => (g e.1 p).map (fun v => (p, v)))) := by
  induction s generalizing acc with
  | nil => simp
  | cons e t ih =>
    rw [List.foldl_cons, List.flatMap_cons]
    rw [pathsOf_cons] at hnd
    have hnd1 : e.2.Nodup := (List.nodup_append.mp hnd).1
    have hnd2 : (pathsOf t).Nodup := (List.nodup_append.mp hnd).2.1
    have hdisj : e.2.Disjoint (pathsOf t) := List.disjoint_of_nodup_append hnd
    rw [foldl_write_inner g e.1 e.2 acc hnd1
      (fun p hp => hfresh p (by rw [pathsOf_cons]; exact List.mem_append_left _ hp))]
    have hfresh2 : ∀ p ∈ pathsOf t,
        p ∉ keysOf (acc ++ e.2.filterMap (fun p => (g e.1 p).map (fun v => (p, v)))) := by
      intro q hq
      rw [keysOf, List.map_append, List.mem_append]
      push_neg
      refine ⟨hfresh q (by rw [pathsOf_cons]; exact List.mem_append_right _ hq), ?_⟩
      intro hmem
      exact hdisj ((keysOf_entry_writes (g e.1) e.2).mem hmem) hq
    rw [ih _ hnd2 hfresh2, List.append_assoc]

theorem writeFold_eq {β : Type} (g : String → String → Option β) (s : Snapshot)
    (hnd : (pathsOf s).Nodup) :
    writeFold s g =
      s.flatMap (fun e => e.2.filterMap (fun p => (g e.1 p).map (fun v => (p, v)))) := by
  rw [writeFold, writeFold_go g s [] hnd (by simp [keysOf])]
  simp

theorem keysOf_flatMap_writes_sublist {β : Type} (g : String → String → Option β)
    (s : Snapshot) :
    List.Sublist
      (keysOf (s.flatMap (fun e => e.2.filterMap (fun p => (g e.1 p).map (fun v => (p, v))))))
      (pathsOf s) := by
  induction s with
  | nil => simp [keysOf, pathsOf]
  | cons e t ih =>
    rw [List.flatMap_cons, pathsOf_cons, keysOf, List.map_append]
    exact List.Sublist.append (keysOf_entry_writes (g e.1) e.2) ih

theorem lookup_writeFold {β : Type} {g : String → String → Option β} {s : Snapshot}
    (hnd : (pathsOf s).Nodup) (p : String) (v : β) :
    (writeFold s g).lookup p = some v ↔ ∃ e ∈ s, p ∈ e.2 ∧ g e.1 p = some v := by
  rw [writeFold_eq g s hnd]
  constructor
  · intro h
    have hm := lookup_mem h
    rw [List.mem_flatMap] at hm
    obtain ⟨e, he, hmm⟩ := hm
    rw [List.mem_filterMap] at hmm
    obtain ⟨q, hq, hmap⟩ := hmm
    cases hg : g e.1 q with
    | none => rw [hg] at hmap; simp at hmap
    | some w =>
      rw [hg] at hmap
      simp only [Option.map_some', Option.some.injEq, Prod.mk.injEq] at hmap
      obtain ⟨rfl, rfl⟩ := hmap
      exact ⟨e, he, hq, hg⟩
  · rintro ⟨e, he, hp, hg⟩
    apply mem_lookup_nodup ((keysOf_flatMap_writes_sublist g s).nodup hnd)
    rw [List.mem_flatMap]
    refine ⟨e, he, List.mem_filterMap.mpr ⟨p, hp, ?_⟩⟩
    rw [hg]
    rfl

theorem keysOf_writeFold_sublist {β : Type} (g : String → String → Option β) (s : Snapshot)
    (hnd : (pathsOf s).Nodup) :
    List.Sublist (keysOf (writeFold s g)) (pathsOf s) := by
  rw [writeFold_eq g s hnd]
  exact keysOf_flatMap_writes_sublist g s

theorem lookup_reverse_index {s : Snapshot} (hnd : (pathsOf s).Nodup) (p sha : String) :
    (reverse_index s).lookup p = some sha ↔ ∃ e ∈ s, e.1 = sha ∧ p ∈ e.2 := by
  rw [reverse_index, lookup_writeFold hnd]
  constructor
  · rintro ⟨e, he, hp, hg⟩
    cases hg
    exact ⟨e, he, rfl, hp⟩
  · rintro ⟨e, he, h1, hp⟩
    exact ⟨e, he, hp, by rw [h1]⟩

theorem lookup_reverse_index_isSome {s : Snapshot} (hnd : (pathsOf s).Nodup) (p : String) :
    ((reverse_index s).lookup p).isSome = true ↔ p ∈ pathsOf s := by
  constructor
  · intro h
    obtain ⟨sha, hsha⟩ := Option.isSome_iff_exists.mp h
    obtain ⟨e, he, _, hp⟩ := (lookup_reverse_index hnd p sha).mp hsha
    exact mem_pathsOf_of_mem he hp
  · intro h
    obtain ⟨e, he, hp⟩ := mem_pathsOf.mp h
    rw [Option.isSome_iff_exists]
    exact ⟨e.1, (lookup_reverse_index hnd p e.1).mpr ⟨e, he, rfl, hp⟩⟩

/-! ### Pipeline plumbing and small utilities -/

theorem strip_eq (current old : Snapshot) :
    strip current old =
      match strip_copy_or_new (cur4 current old) (old4 current old) old with
      | .error info => .error info
      | .ok r =>
        .ok { current_stripped := r.1, old_stripped := r.2.1,
              content_changes := cc12 current old, moves := mv3 current old,
              removals := rm4 current old, copies := r.2.2.1, new := r.2.2.2 } := rfl

theorem memSnap_iff {s : Snapshot} {sha p : String} :
    memSnap s sha p = true ↔ ∃ ps, s.lookup sha = some ps ∧ p ∈ ps := by
  unfold memSnap
  cases h : s.lookup sha with
  | none => simp
  | some ps => simp

theorem memSnap_of_entry {s : Snapshot} (hk : (keysOf s).Nodup)
    {e : String × List String} (he : e ∈ s) {p : String} (hp : p ∈ e.2) :
    memSnap s e.1 p = true :=
  memSnap_iff.mpr ⟨e.2, mem_lookup_nodup hk he, hp⟩

theorem mem_pathsOf_of_memSnap {s : Snapshot} {sha p : String}
    (h : memSnap s sha p = true) : p ∈ pathsOf s := by
  obtain ⟨ps, hl, hp⟩ := memSnap_iff.mp h
  exact mem_pathsOf_of_mem (lookup_mem hl) hp

theorem filter_not_mem_append {l1 l2 : List String} (hd : ∀ a ∈ l2, a ∉ l1) :
    (l1 ++ l2).filter (fun p => decide (p ∉ l1)) = l2 := by
  rw [List.filter_append]
  have h1 : l1.filter (fun p => decide (p ∉ l1)) = [] := by
    rw [List.filter_eq_nil_iff]
    intro a ha
    simp [ha]
  have h2 : l2.filter (fun p => decide (p ∉ l1)) = l2 := by
    rw [List.filter_eq_self]
    intro a ha
    simp [hd a ha]
  rw [h1, h2, List.nil_append]

theorem filter_not_mem_take {l : List String} (hnd : l.Nodup) (n : Nat) :
    l.filter (fun p => decide (p ∉ l.take n)) = l.drop n := by
  have hd : ∀ a ∈ l.drop n, a ∉ l.take n := by
    have hsplit : l.take n ++ l.drop n = l := List.take_append_drop n l
    have hnd2 : (l.take n ++ l.drop n).Nodup := by rw [hsplit]; exact hnd
    have hdisj := List.disjoint_of_nodup_append hnd2
    exact fun a ha hmem => hdisj hmem ha
  have hgen := filter_not_mem_append hd
  calc l.filter (fun p => decide (p ∉ l.take n))
      = (l.take n ++ l.drop n).filter (fun p => decide (p ∉ l.take n)) := by
        rw [List.take_append_drop]
    _ = l.drop n := hgen

theorem exists_pair_zip_left {α β : Type} {l1 : List α} {l2 : List β} {p : α}
    (h : p ∈ l1) (hlen : l1.length = l2.length) : ∃ q, (p, q) ∈ l1.zip l2 := by
  induction l1 generalizing l2 with
  | nil => simp at h
  | cons a t ih =>
    cases l2 with
    | nil => simp at hlen
    | cons b t2 =>
      rcases List.mem_cons.mp h with rfl | ht
      · exact ⟨b, by rw [List.zip_cons_cons]; exact List.mem_cons_self _ _⟩
      · obtain ⟨q, hq⟩ := ih ht (by simpa using hlen)
        exact ⟨q, by rw [List.zip_cons_cons]; exact List.mem_cons_of_mem _ hq⟩

theorem exists_pair_zip_right {α β : Type} {l1 : List α} {l2 : List β} {q : β}
    (h : q ∈ l2) (hlen : l1.length = l2.length) : ∃ p, (p, q) ∈ l1.zip l2 := by
  induction l2 generalizing l1 with
  | nil => simp at h
  | cons b t2 ih =>
    cases l1 with
    | nil => simp at hlen
    | cons a t =>
      rcases List.mem_cons.mp h with rfl | ht
      · exact ⟨a, by rw [List.zip_cons_cons]; exact List.mem_cons_self _ _⟩
      · obtain ⟨p, hp⟩ := ih ht (by simpa using hlen)
        exact ⟨p, by rw [List.zip_cons_cons]; exact List.mem_cons_of_mem _ hp⟩

/-! ### Definitional projections of the pipeline stages -/

theorem cur1_eq (c o : Snapshot) :
    cur1 c o = rebuild c (fun e x => ! memSnap o e.1 x) := rfl

theorem old1_eq (c o : Snapshot) :
    old1 c o = rebuild o (fun e x => ! memSnap c e.1 x) := rfl

theorem cc12_eq (c o : Snapshot) : cc12 c o = ccOf (cur1 c o) (old1 c o) := rfl

theorem cur2_eq (c o : Snapshot) :
    cur2 c o = rebuild (cur1 c o) (fun _ p => ((cc12 c o).lookup p).isNone) := rfl

theorem old2_eq (c o : Snapshot) :
    old2 c o = rebuild (old1 c o) (fun _ p => ((cc12 c o).lookup p).isNone) := rfl

theorem mv3_eq (c o : Snapshot) : mv3 c o = movesOf (cur2 c o) (old2 c o) := rfl

theorem cur3_eq (c o : Snapshot) :
    cur3 c o = rebuild (cur2 c o) (fun e p =>
      match (old2 c o).lookup e.1 with
      | some ops => decide (p ∉ e.2.take (min ops.length e.2.length))
      | none => true) := rfl

theorem old3_eq (c o : Snapshot) :
    old3 c o = rebuild (old2 c o) (fun e p =>
      match (cur2 c o).lookup e.1 with
      | some cps => decide (p ∉ e.2.take (min e.2.length cps.length))
      | none => true) := rfl

theorem cur4_eq (c o : Snapshot) : cur4 c o = cur3 c o := rfl

theorem old4_eq (c o : Snapshot) :
    old4 c o = rebuild (old3 c o) (fun e _ => ((cur3 c o).lookup e.1).isSome) := rfl

theorem rm4_eq (c o : Snapshot) :
    rm4 c o = rebuild (old3 c o) (fun e _ => ((cur3 c o).lookup e.1).isNone) := rfl

/-! ### Stage 1: the unchanged filter -/

theorem unchangedIn_iff {c o : Snapshot} {p : String} :
    unchangedIn c o p = true ↔ ∃ e ∈ o, p ∈ e.2 ∧ memSnap c e.1 p = true := by
  rw [unchangedIn, List.any_eq_true]
  constructor
  · rintro ⟨e, he, hb⟩
    rw [Bool.and_eq_true, decide_eq_true_eq] at hb
    exact ⟨e, he, hb.1, hb.2⟩
  · rintro ⟨e, he, h1, h2⟩
    exact ⟨e, he, by rw [Bool.and_eq_true, decide_eq_true_eq]; exact ⟨h1, h2⟩⟩

theorem unchangedIn_symm {c o : Snapshot} (hkc : (keysOf c).Nodup)
    (hko : (keysOf o).Nodup) {p : String} :
    unchangedIn c o p = true ↔ ∃ e ∈ c, p ∈ e.2 ∧ memSnap o e.1 p = true := by
  rw [unchangedIn_iff]
  constructor
  · rintro ⟨e, he, hp, hm⟩
    obtain ⟨ps, hl, hpp⟩ := memSnap_iff.mp hm
    refine ⟨(e.1, ps), lookup_mem hl, hpp, ?_⟩
    exact memSnap_iff.mpr ⟨e.2, mem_lookup_nodup hko he, hp⟩
  · rintro ⟨e, he, hp, hm⟩
    obtain ⟨ps, hl, hpp⟩ := memSnap_iff.mp hm
    refine ⟨(e.1, ps), lookup_mem hl, hpp, ?_⟩
    exact memSnap_iff.mpr ⟨e.2, mem_lookup_nodup hkc he, hp⟩

theorem mem_old1_iff {c o : Snapshot} (hpo : (pathsOf o).Nodup) {p : String} :
    p ∈ pathsOf (old1 c o) ↔ p ∈ pathsOf o ∧ unchangedIn c o p = false := by
  rw [old1_eq, mem_pathsOf_rebuild]
  constructor
  · rintro ⟨e, he, hp, hk⟩
    have hm : memSnap c e.1 p = false := by
      cases hms : memSnap c e.1 p
      · rfl
      · rw [hms] at hk
        simp at hk
    refine ⟨mem_pathsOf_of_mem he hp, ?_⟩
    cases hu : unchangedIn c o p
    · rfl
    · exfalso
      obtain ⟨e', he', hp', hm'⟩ := unchangedIn_iff.mp hu
      have heq := entry_unique hpo he he' hp hp'
      rw [← heq] at hm'
      rw [hm'] at hm
      cases hm
  · rintro ⟨hpp, hu⟩
    obtain ⟨e, he, hp⟩ := mem_pathsOf.mp hpp
    refine ⟨e, he, hp, ?_⟩
    cases hms : memSnap c e.1 p
    · rfl
    · exfalso
      have htr : unchangedIn c o p = true := unchangedIn_iff.mpr ⟨e, he, hp, hms⟩
      rw [htr] at hu
      cases hu

theorem mem_cur1_iff {c o : Snapshot} (hpc : (pathsOf c).Nodup)
    (hkc : (keysOf c).Nodup) (hko : (keysOf o).Nodup) {p : String} :
    p ∈ pathsOf (cur1 c o) ↔ p ∈ pathsOf c ∧ unchangedIn c o p = false := by
  rw [cur1_eq, mem_pathsOf_rebuild]
  constructor
  · rintro ⟨e, he, hp, hk⟩
    have hm : memSnap o e.1 p = false := by
      cases hms : memSnap o e.1 p
      · rfl
      · rw [hms] at hk
        simp at hk
    refine ⟨mem_pathsOf_of_mem he hp, ?_⟩
    cases hu : unchangedIn c o p
    · rfl
    · exfalso
      obtain ⟨e', he', hp', hm'⟩ := (unchangedIn_symm hkc hko).mp hu
      have heq := entry_unique hpc he he' hp hp'
      rw [← heq] at hm'
      rw [hm'] at hm
      cases hm
  · rintro ⟨hpp, hu⟩
    obtain ⟨e, he, hp⟩ := mem_pathsOf.mp hpp
    refine ⟨e, he, hp, ?_⟩
    cases hms : memSnap o e.1 p
    · rfl
    · exfalso
      have htr : unchangedIn c o p = true := (unchangedIn_symm hkc hko).mpr ⟨e, he, hp, hms⟩
      rw [htr] at hu
      cases hu

/-! ### Stage 2: content changes -/

theorem cc_lookup_iff {c1 o1 : Snapshot} (ho1 : (pathsOf o1).Nodup)
    (hc1 : (pathsOf c1).Nodup) {p : String} {v : String × String} :
    (ccOf c1 o1).lookup p = some v ↔
      ∃ e ∈ o1, ∃ e', e' ∈ c1 ∧ p ∈ e.2 ∧ p ∈ e'.2 ∧ e.1 ≠ e'.1 ∧ v = (e.1, e'.1) := by
  rw [ccOf, lookup_writeFold ho1]
  constructor
  · rintro ⟨e, he, hp, hg⟩
    cases hr : (reverse_index c1).lookup p with
    | none =>
      simp only [hr] at hg
      exact Option.noConfusion hg
    | some sha2 =>
      simp only [hr] at hg
      by_cases hne : e.1 ≠ sha2
      · rw [if_pos hne] at hg
        cases hg
        obtain ⟨e', he', h1, hp'⟩ := (lookup_reverse_index hc1 p sha2).mp hr
        exact ⟨e, he, e', he', hp, hp', h1 ▸ hne, by rw [h1]⟩
      · rw [if_neg hne] at hg
        cases hg
  · rintro ⟨e, he, e', he', hp, hp', hne, rfl⟩
    refine ⟨e, he, hp, ?_⟩
    have hr : (reverse_index c1).lookup p = some e'.1 :=
      (lookup_reverse_index hc1 p e'.1).mpr ⟨e', he', rfl, hp'⟩
    simp only [hr]
    rw [if_pos hne]

theorem cc_isSome_both {c1 o1 : Snapshot} (ho1 : (pathsOf o1).Nodup)
    (hc1 : (pathsOf c1).Nodup) {p : String}
    (h : ((ccOf c1 o1).lookup p).isSome = true) :
    p ∈ pathsOf o1 ∧ p ∈ pathsOf c1 := by
  obtain ⟨v, hv⟩ := Option.isSome_iff_exists.mp h
  obtain ⟨e, he, e', he', hp, hp', _, _⟩ := (cc_lookup_iff ho1 hc1).mp hv
  exact ⟨mem_pathsOf_of_mem he hp, mem_pathsOf_of_mem he' hp'⟩

theorem cc_isSome_of_two_shas {c1 o1 : Snapshot} (ho1 : (pathsOf o1).Nodup)
    (hc1 : (pathsOf c1).Nodup) {p : String} {e e' : String × List String}
    (he : e ∈ o1) (he' : e' ∈ c1) (hp : p ∈ e.2) (hp' : p ∈ e'.2) (hne : e.1 ≠ e'.1) :
    ((ccOf c1 o1).lookup p).isSome = true := by
  rw [Option.isSome_iff_exists]
  exact ⟨(e.1, e'.1), (cc_lookup_iff ho1 hc1).mpr ⟨e, he, e', he', hp, hp', hne, rfl⟩⟩

theorem mem_old2_iff {c o : Snapshot} {p : String} :
    p ∈ pathsOf (old2 c o) ↔
      p ∈ pathsOf (old1 c o) ∧ ((cc12 c o).lookup p).isNone = true := by
  rw [old2_eq, mem_pathsOf_rebuild, mem_pathsOf]
  constructor
  · rintro ⟨e, he, hp, hk⟩
    exact ⟨⟨e, he, hp⟩, hk⟩
  · rintro ⟨⟨e, he, hp⟩, hk⟩
    exact ⟨e, he, hp, hk⟩

theorem mem_cur2_iff {c o : Snapshot} {p : String} :
    p ∈ pathsOf (cur2 c o) ↔
      p ∈ pathsOf (cur1 c o) ∧ ((cc12 c o).lookup p).isNone = true := by
  rw [cur2_eq, mem_pathsOf_rebuild, mem_pathsOf]
  constructor
  · rintro ⟨e, he, hp, hk⟩
    exact ⟨⟨e, he, hp⟩, hk⟩
  · rintro ⟨⟨e, he, hp⟩, hk⟩
    exact ⟨e, he, hp, hk⟩

/-! ### Stage 3: moves -/

theorem mem_movesOf_iff {c2 o2 : Snapshot} {m : String × List (String × String)} :
    m ∈ movesOf c2 o2 ↔ ∃ e ∈ o2, ∃ cps, c2.lookup e.1 = some cps ∧
      min e.2.length cps.length ≠ 0 ∧
      m = (e.1, (e.2.take (min e.2.length cps.length)).zip
        (cps.take (min e.2.length cps.length))) := by
  rw [movesOf]
  simp only [List.mem_filterMap]
  constructor
  · rintro ⟨e, he, hf⟩
    cases hl : c2.lookup e.1 with
    | none =>
      simp only [hl] at hf
      exact Option.noConfusion hf
    | some cps =>
      simp only [hl] at hf
      by_cases hn : min e.2.length cps.length = 0
      · rw [if_pos hn] at hf
        cases hf
      · rw [if_neg hn] at hf
        cases hf
        exact ⟨e, he, cps, hl, hn, rfl⟩
  · rintro ⟨e, he, cps, hl, hn, rfl⟩
    refine ⟨e, he, ?_⟩
    simp only [hl]
    rw [if_neg hn]

theorem take_length_of_min_left {l1 : List String} {l2 : List String} :
    (l1.take (min l1.length l2.length)).length = min l1.length l2.length := by
  rw [List.length_take]
  omega

theorem take_length_of_min_right {l1 : List String} {l2 : List String} :
    (l2.take (min l1.length l2.length)).length = min l1.length l2.length := by
  rw [List.length_take]
  omega

theorem move_pair_left_mem {c2 o2 : Snapshot} {m : String × List (String × String)}
    (hm : m ∈ movesOf c2 o2) {pr : String × String} (hpr : pr ∈ m.2) :
    ∃ e ∈ o2, e.1 = m.1 ∧ ∃ cps, c2.lookup e.1 = some cps ∧
      pr.1 ∈ e.2.take (min e.2.length cps.length) ∧
      pr.2 ∈ cps.take (min e.2.length cps.length) := by
  obtain ⟨e, he, cps, hl, hn, rfl⟩ := mem_movesOf_iff.mp hm
  obtain ⟨p, q⟩ := pr
  have := List.of_mem_zip hpr
  exact ⟨e, he, rfl, cps, hl, this.1, this.2⟩

theorem move_left_mem_paths {c2 o2 : Snapshot} {p : String}
    (h : ∃ m ∈ movesOf c2 o2, ∃ pr ∈ m.2, pr.1 = p) : p ∈ pathsOf o2 := by
  obtain ⟨m, hm, pr, hpr, hpr1⟩ := h
  obtain ⟨e, he, _, cps, _, hmem1, _⟩ := move_pair_left_mem hm hpr
  exact mem_pathsOf_of_mem he (List.take_subset _ _ (hpr1 ▸ hmem1))

theorem move_right_mem_paths {c2 o2 : Snapshot} {p : String}
    (h : ∃ m ∈ movesOf c2 o2, ∃ pr ∈ m.2, pr.2 = p) : p ∈ pathsOf c2 := by
  obtain ⟨m, hm, pr, hpr, hpr2⟩ := h
  obtain ⟨e, he, _, cps, hl, _, hmem2⟩ := move_pair_left_mem hm hpr
  exact mem_pathsOf_of_mem (lookup_mem hl) (List.take_subset _ _ (hpr2 ▸ hmem2))

theorem mem_strip_moves_old_iff {c2 o2 : Snapshot} (ho2 : (pathsOf o2).Nodup) {p : String} :
    p ∈ pathsOf (strip_moves c2 o2).2.1 ↔
      p ∈ pathsOf o2 ∧ ¬ ∃ m ∈ movesOf c2 o2, ∃ pr ∈ m.2, pr.1 = p := by
  have hsm : (strip_moves c2 o2).2.1 = rebuild o2 (fun e p =>
      match c2.lookup e.1 with
      | some cps => decide (p ∉ e.2.take (min e.2.length cps.length))
      | none => true) := rfl
  rw [hsm, mem_pathsOf_rebuild]
  constructor
  · rintro ⟨e, he, hp, hk⟩
    refine ⟨mem_pathsOf_of_mem he hp, ?_⟩
    rintro ⟨m, hm, pr, hpr, hpr1⟩
    obtain ⟨e'', he'', h1, cps'', hl'', hmem1, hmem2⟩ := move_pair_left_mem hm hpr
    have hpe : p ∈ e''.2 := List.take_subset _ _ (hpr1 ▸ hmem1)
    have heq := entry_unique ho2 he he'' hp hpe
    rw [← heq] at hl'' hmem1
    simp only [hl''] at hk
    rw [decide_eq_true_eq] at hk
    exact hk (hpr1 ▸ hmem1)
  · rintro ⟨hpp, hno⟩
    obtain ⟨e, he, hp⟩ := mem_pathsOf.mp hpp
    refine ⟨e, he, hp, ?_⟩
    cases hl : c2.lookup e.1 with
    | none => simp
    | some cps =>
      rw [decide_eq_true_eq]
      intro htake
      have hn : min e.2.length cps.length ≠ 0 := by
        intro h0
        rw [h0, List.take_zero] at htake
        simp at htake
      apply hno
      refine ⟨(e.1, (e.2.take (min e.2.length cps.length)).zip
          (cps.take (min e.2.length cps.length))),
        mem_movesOf_iff.mpr ⟨e, he, cps, hl, hn, rfl⟩, ?_⟩
      have hlen : (e.2.take (min e.2.length cps.length)).length =
          (cps.take (min e.2.length cps.length)).length := by
        rw [take_length_of_min_left, take_length_of_min_right]
      obtain ⟨q, hq⟩ := exists_pair_zip_left htake hlen
      exact ⟨(p, q), hq, rfl⟩

theorem mem_strip_moves_cur_iff {c2 o2 : Snapshot} (hpc2 : (pathsOf c2).Nodup)
    (hkc2 : (keysOf c2).Nodup) (hko2 : (keysOf o2).Nodup) {p : String} :
    p ∈ pathsOf (strip_moves c2 o2).1 ↔
      p ∈ pathsOf c2 ∧ ¬ ∃ m ∈ movesOf c2 o2, ∃ pr ∈ m.2, pr.2 = p := by
  have hsm : (strip_moves c2 o2).1 = rebuild c2 (fun e p =>
      match o2.lookup e.1 with
      | some ops => decide (p ∉ e.2.take (min ops.length e.2.length))
      | none => true) := rfl
  rw [hsm, mem_pathsOf_rebuild]
  constructor
  · rintro ⟨e, he, hp, hk⟩
    refine ⟨mem_pathsOf_of_mem he hp, ?_⟩
    rintro ⟨m, hm, pr, hpr, hpr2⟩
    obtain ⟨e'', he'', h1, cps'', hl'', hmem1, hmem2⟩ := move_pair_left_mem hm hpr
    have hpe : p ∈ cps'' := List.take_subset _ _ (hpr2 ▸ hmem2)
    have he2 : (e''.1, cps'') ∈ c2 := lookup_mem hl''
    have heq := entry_unique hpc2 he he2 hp hpe
    have hlo : o2.lookup e.1 = some e''.2 := by
      rw [show e.1 = e''.1 from by rw [heq]]
      exact mem_lookup_nodup hko2 he''
    simp only [hlo] at hk
    rw [decide_eq_true_eq] at hk
    apply hk
    have he22 : e.2 = cps'' := by rw [heq]
    rw [he22]
    exact hpr2 ▸ hmem2
  · rintro ⟨hpp, hno⟩
    obtain ⟨e, he, hp⟩ := mem_pathsOf.mp hpp
    refine ⟨e, he, hp, ?_⟩
    cases hl : o2.lookup e.1 with
    | none => simp
    | some ops =>
      rw [decide_eq_true_eq]
      intro htake
      have hn : min ops.length e.2.length ≠ 0 := by
        intro h0
        rw [h0, List.take_zero] at htake
        simp at htake
      apply hno
      have hlc : c2.lookup e.1 = some e.2 := mem_lookup_nodup hkc2 he
      refine ⟨(e.1, (ops.take (min ops.length e.2.length)).zip
          (e.2.take (min ops.length e.2.length))),
        mem_movesOf_iff.mpr ⟨(e.1, ops), lookup_mem hl, e.2, hlc, hn, rfl⟩, ?_⟩
      have hlen : (ops.take (min ops.length e.2.length)).length =
          (e.2.take (min ops.length e.2.length)).length := by
        rw [take_length_of_min_left, take_length_of_min_right]
      obtain ⟨q, hq⟩ := exists_pair_zip_right htake hlen
      exact ⟨(q, p), hq, rfl⟩

theorem moves_keys_disjoint {c2 o2 : Snapshot} (hkc2 : (keysOf c2).Nodup)
    (hko2 : (keysOf o2).Nodup) {sha : String}
    (h3 : sha ∈ keysOf (strip_moves c2 o2).2.1) :
    sha ∉ keysOf (strip_moves c2 o2).1 := by
  obtain ⟨ps, hmem⟩ := mem_keysOf.mp h3
  have hmem' : (sha, ps) ∈ rebuild o2 (fun e p =>
      match c2.lookup e.1 with
      | some cps => decide (p ∉ e.2.take (min e.2.length cps.length))
      | none => true) := hmem
  obtain ⟨e, he, h1, h2, hne⟩ := mem_rebuild_iff.mp hmem'
  simp only at h1 h2
  intro hc3
  obtain ⟨ps', hmem2⟩ := mem_keysOf.mp hc3
  have hmem2' : (sha, ps') ∈ rebuild c2 (fun e p =>
      match o2.lookup e.1 with
      | some ops => decide (p ∉ e.2.take (min ops.length e.2.length))
      | none => true) := hmem2
  obtain ⟨e', he', h1', h2', hne'⟩ := mem_rebuild_iff.mp hmem2'
  simp only at h1' h2'
  have hlc : c2.lookup e.1 = some e'.2 := by
    rw [show e.1 = e'.1 from by rw [← h1, ← h1']]
    exact mem_lookup_nodup hkc2 he'
  have hlo : o2.lookup e'.1 = some e.2 := by
    rw [show e'.1 = e.1 from by rw [← h1, ← h1']]
    exact mem_lookup_nodup hko2 he
  simp only [hlc] at h2
  simp only [hlo] at h2'
  have hne2 : ps ≠ [] := hne
  obtain ⟨p0, hp0⟩ := List.exists_mem_of_ne_nil _ hne2
  rw [h2] at hp0
  have hp0f := List.mem_filter.mp hp0
  rw [decide_eq_true_eq] at hp0f
  have hlt : min e.2.length e'.2.length < e.2.length := by
    rcases Nat.lt_or_ge (min e.2.length e'.2.length) e.2.length with h | h
    · exact h
    · exfalso
      have hmeq : min e.2.length e'.2.length = e.2.length := by omega
      rw [hmeq, List.take_length] at hp0f
      exact hp0f.2 hp0f.1
  have hminr : min e.2.length e'.2.length = e'.2.length := by omega
  rw [hminr, List.take_length] at h2'
  have hps' : ps' = [] := by
    rw [h2', List.filter_eq_nil_iff]
    intro a ha
    simp [ha]
  exact hne' hps'

/-! ### Stage 4: removals -/

theorem strip_removal_old_empty {c3 o3 : Snapshot}
    (hd : ∀ sha ∈ keysOf o3, ¬ sha ∈ keysOf c3) :
    (strip_removal c3 o3).2.1 = [] := by
  have hrw : (strip_removal c3 o3).2.1 = rebuild o3 (fun e _ => (c3.lookup e.1).isSome) := rfl
  rw [hrw, rebuild, List.filterMap_eq_nil_iff]
  intro e he
  have hnone : c3.lookup e.1 = none := by
    rw [lookup_eq_none_iff]
    exact hd e.1 (mem_keysOf.mpr ⟨e.2, he⟩)
  simp [hnone]

theorem mem_strip_removal_rm_iff {c3 o3 : Snapshot}
    (hd : ∀ sha ∈ keysOf o3, ¬ sha ∈ keysOf c3) {p : String} :
    p ∈ pathsOf (strip_removal c3 o3).2.2 ↔ p ∈ pathsOf o3 := by
  have hrw : (strip_removal c3 o3).2.2 = rebuild o3 (fun e _ => (c3.lookup e.1).isNone) := rfl
  rw [hrw, mem_pathsOf_rebuild, mem_pathsOf]
  constructor
  · rintro ⟨e, he, hp, _⟩
    exact ⟨e, he, hp⟩
  · rintro ⟨e, he, hp⟩
    refine ⟨e, he, hp, ?_⟩
    have hnone : c3.lookup e.1 = none := by
      rw [lookup_eq_none_iff]
      exact hd e.1 (mem_keysOf.mpr ⟨e.2, he⟩)
    simp [hnone]

/-! ### Stage 5: copies and new files -/

theorem newOf_key_mem {c4 oo : Snapshot} {e' : String × List String} :
    e' ∈ newOf c4 oo ↔ e' ∈ c4 ∧ (oo.lookup e'.1).isNone = true := by
  rw [newOf]
  simp only [List.mem_filterMap]
  constructor
  · rintro ⟨e, he, hf⟩
    by_cases h : (oo.lookup e.1).isNone
    · rw [if_pos h] at hf
      cases hf
      exact ⟨he, h⟩
    · rw [if_neg h] at hf
      cases hf
  · rintro ⟨he, h⟩
    exact ⟨e', he, by rw [if_pos h]⟩

theorem copiesOf_mem_iff {c4 oo : Snapshot} {m : String × String × List String} :
    m ∈ copiesOf c4 oo ↔ ∃ e ∈ c4, ∃ ops, oo.lookup e.1 = some ops ∧ e.2 ≠ [] ∧
      m = (e.1, ops.headD "", e.2) := by
  rw [copiesOf]
  simp only [List.mem_filterMap]
  constructor
  · rintro ⟨e, he, hf⟩
    cases hl : oo.lookup e.1 with
    | none =>
      simp only [hl] at hf
      exact Option.noConfusion hf
    | some ops =>
      simp only [hl] at hf
      by_cases hemp : e.2.isEmpty
      · rw [if_pos hemp] at hf
        cases hf
      · rw [if_neg hemp] at hf
        cases hf
        exact ⟨e, he, ops, hl, by simpa [List.isEmpty_iff] using hemp, rfl⟩
  · rintro ⟨e, he, ops, hl, hne, rfl⟩
    refine ⟨e, he, ?_⟩
    simp only [hl]
    rw [if_neg (by simpa [List.isEmpty_iff] using hne)]

theorem keysOf_newOf_sublist (c4 oo : Snapshot) :
    List.Sublist (keysOf (newOf c4 oo)) (keysOf c4) := by
  apply keysOf_filterMap_sublist
  intro e e' hf
  by_cases h : (oo.lookup e.1).isNone
  · rw [if_pos h] at hf
    cases hf
    rfl
  · rw [if_neg h] at hf
    cases hf

theorem keysOf_copiesOf_sublist (c4 oo : Snapshot) :
    List.Sublist (keysOf (copiesOf c4 oo)) (keysOf c4) := by
  apply keysOf_filterMap_sublist
  intro e e' hf
  cases hl : oo.lookup e.1 with
  | none =>
    simp only [hl] at hf
    exact Option.noConfusion hf
  | some ops =>
    simp only [hl] at hf
    by_cases hemp : e.2.isEmpty
    · rw [if_pos hemp] at hf
      cases hf
    · rw [if_neg hemp] at hf
      cases hf
      rfl

theorem newOf_lookup_of {c4 oo : Snapshot} (hk : (keysOf c4).Nodup)
    {e : String × List String} (he : e ∈ c4)
    (hoo : (oo.lookup e.1).isNone = true) : (newOf c4 oo).lookup e.1 = some e.2 := by
  apply mem_lookup_nodup ((keysOf_newOf_sublist c4 oo).nodup hk)
  exact newOf_key_mem.mpr ⟨he, hoo⟩

theorem copiesOf_lookup_of {c4 oo : Snapshot} (hk : (keysOf c4).Nodup)
    {e : String × List String} (he : e ∈ c4) {ops : List String}
    (hoo : oo.lookup e.1 = some ops) (hne : e.2 ≠ []) :
    (copiesOf c4 oo).lookup e.1 = some (ops.headD "", e.2) := by
  apply mem_lookup_nodup ((keysOf_copiesOf_sublist c4 oo).nodup hk)
  exact copiesOf_mem_iff.mpr ⟨e, he, ops, hoo, hne, rfl⟩

theorem mem_pathsOf_newOf_iff {c4 oo : Snapshot} {p : String} :
    p ∈ pathsOf (newOf c4 oo) ↔ ∃ e ∈ c4, p ∈ e.2 ∧ (oo.lookup e.1).isNone = true := by
  rw [mem_pathsOf]
  constructor
  · rintro ⟨e', he', hp⟩
    obtain ⟨he, hcond⟩ := newOf_key_mem.mp he'
    exact ⟨e', he, hp, hcond⟩
  · rintro ⟨e, he, hp, hcond⟩
    exact ⟨e, newOf_key_mem.mpr ⟨he, hcond⟩, hp⟩

theorem copy_dest_iff {c4 oo : Snapshot} {p : String} :
    (∃ m ∈ copiesOf c4 oo, p ∈ m.2.2) ↔
      ∃ e ∈ c4, p ∈ e.2 ∧ (oo.lookup e.1).isSome = true := by
  constructor
  · rintro ⟨m, hm, hp⟩
    obtain ⟨e, he, ops, hl, hne, rfl⟩ := copiesOf_mem_iff.mp hm
    exact ⟨e, he, hp, by rw [hl]; rfl⟩
  · rintro ⟨e, he, hp, hcond⟩
    obtain ⟨ops, hl⟩ := Option.isSome_iff_exists.mp hcond
    exact ⟨(e.1, ops.headD "", e.2),
      copiesOf_mem_iff.mpr ⟨e, he, ops, hl, List.ne_nil_of_mem hp, rfl⟩, hp⟩

theorem strip_copy_or_new_ok_of_no_trigger {c4 o4 oo : Snapshot}
    (hf : c4.findSome? (stage5Trigger o4 oo) = none) :
    strip_copy_or_new c4 o4 oo = .ok (rebuild c4 (fun e p =>
      ! (decide (p ∈ ((newOf c4 oo).lookup e.1).getD []) ||
         decide (p ∈ (((copiesOf c4 oo).lookup e.1).map Prod.snd).getD []))),
      o4, copiesOf c4 oo, newOf c4 oo) := by
  rw [strip_copy_or_new, hf]

theorem no_trigger_of_empty_old {c4 oo : Snapshot}
    (hneo : ∀ e ∈ oo, e.2 ≠ []) :
    c4.findSome? (stage5Trigger [] oo) = none := by
  rw [List.findSome?_eq_none_iff]
  intro e _
  rw [stage5Trigger]
  simp only [List.lookup_nil]
  cases hoo : oo.lookup e.1 with
  | none => rfl
  | some ops =>
    cases hops : ops with
    | nil =>
      subst hops
      exact absurd rfl (hneo (e.1, []) (lookup_mem hoo))
    | cons q rest => rfl

theorem trigger_empty_old_not_assert (oo : Snapshot) (a : String × List String)
    (info : AssertInfo) : stage5Trigger [] oo a ≠ some (.assertFailure info) := by
  intro ha
  rw [stage5Trigger] at ha
  simp only [List.lookup_nil] at ha
  cases hoo : oo.lookup a.1 with
  | none =>
    rw [hoo] at ha
    exact Option.noConfusion ha
  | some ops =>
    rw [hoo] at ha
    cases ops with
    | nil =>
      by_cases hne : a.2.isEmpty
      · rw [if_pos hne] at ha
        exact Option.noConfusion ha
      · rw [if_neg hne] at ha
        exact Stage5Error.noConfusion (Option.some.inj ha)
    | cons q rest => exact Option.noConfusion ha

theorem trigger_eq_of_ne_empty {o oo : Snapshot} (hneoo : ∀ e ∈ oo, e.2 ≠ [])
    (e : String × List String) :
    stage5Trigger o oo e =
      (o.lookup e.1).map (fun ops => .assertFailure ⟨e.1, e.2, ops⟩) := by
  rw [stage5Trigger]
  cases ho : o.lookup e.1 with
  | some ops => rfl
  | none =>
    cases hoo : oo.lookup e.1 with
    | none => rfl
    | some ops =>
      cases hops : ops with
      | nil =>
        subst hops
        exact absurd rfl (hneoo (e.1, []) (lookup_mem hoo))
      | cons q rest => rfl

theorem findSome?_trigger_of_find? {o oo : Snapshot} (hneoo : ∀ e ∈ oo, e.2 ≠ [])
    {c : List (String × List String)} {e : String × List String}
    (hfind : c.find? (fun e => (o.lookup e.1).isSome) = some e) :
    c.findSome? (stage5Trigger o oo) =
      some (.assertFailure ⟨e.1, e.2, (o.lookup e.1).getD []⟩) := by
  induction c with
  | nil => exact Option.noConfusion hfind
  | cons a l ih =>
    by_cases hp : (o.lookup a.1).isSome = true
    · have hfc : (a :: l).find? (fun e => (o.lookup e.1).isSome) = some a :=
        List.find?_cons_of_pos _ hp
      rw [hfc] at hfind
      injection hfind with he
      subst he
      obtain ⟨ops, hops⟩ := Option.isSome_iff_exists.mp hp
      rw [List.findSome?_cons, trigger_eq_of_ne_empty hneoo a, hops]
      rfl
    · have hfc : (a :: l).find? (fun e => (o.lookup e.1).isSome) =
          l.find? (fun e => (o.lookup e.1).isSome) :=
        List.find?_cons_of_neg _ hp
      rw [hfc] at hfind
      rw [List.findSome?_cons, trigger_eq_of_ne_empty hneoo a,
        Option.not_isSome_iff_eq_none.mp hp]
      exact ih hfind

theorem strip_ok_inv {c o : Snapshot} {d : ChangeDescription}
    (hd : strip c o = .ok d) :
    d = { current_stripped := rebuild (cur4 c o) (fun e p =>
            ! (decide (p ∈ ((newOf (cur4 c o) o).lookup e.1).getD []) ||
               decide (p ∈ (((copiesOf (cur4 c o) o).lookup e.1).map
                 Prod.snd).getD []))),
          old_stripped := old4 c o,
          content_changes := cc12 c o, moves := mv3 c o, removals := rm4 c o,
          copies := copiesOf (cur4 c o) o, new := newOf (cur4 c o) o } := by
  rw [strip_eq] at hd
  cases hf : (cur4 c o).findSome? (stage5Trigger (old4 c o) o) with
  | some err =>
    rw [strip_copy_or_new, hf] at hd
    exact Except.noConfusion hd
  | none =>
    rw [strip_copy_or_new, hf] at hd
    injection hd with h
    exact h.symm

theorem copy_or_new_rebuild_empty {c4 oo : Snapshot} (hk : (keysOf c4).Nodup) :
    rebuild c4 (fun e p =>
      ! (decide (p ∈ ((newOf c4 oo).lookup e.1).getD []) ||
         decide (p ∈ (((copiesOf c4 oo).lookup e.1).map Prod.snd).getD []))) = [] := by
  rw [rebuild, List.filterMap_eq_nil_iff]
  intro e he
  have hkept : e.2.filter (fun p =>
      ! (decide (p ∈ ((newOf c4 oo).lookup e.1).getD []) ||
         decide (p ∈ (((copiesOf c4 oo).lookup e.1).map Prod.snd).getD []))) = [] := by
    rw [List.filter_eq_nil_iff]
    intro p hp
    cases hoo : oo.lookup e.1 with
    | none =>
      have hl := newOf_lookup_of hk he (by rw [hoo]; rfl)
      simp [hl, hp]
    | some ops =>
      have hne : e.2 ≠ [] := List.ne_nil_of_mem hp
      have hl := copiesOf_lookup_of hk he hoo hne
      simp [hl, hp]
  rw [hkept]
  rfl

/-! ### Invariant propagation along the pipeline -/

theorem nodup_paths_cur1 {c o : Snapshot} (h : (pathsOf c).Nodup) :
    (pathsOf (cur1 c o)).Nodup := by
  rw [cur1_eq]
  exact (pathsOf_rebuild_sublist _ _).nodup h

theorem nodup_paths_old1 {c o : Snapshot} (h : (pathsOf o).Nodup) :
    (pathsOf (old1 c o)).Nodup := by
  rw [old1_eq]
  exact (pathsOf_rebuild_sublist _ _).nodup h

theorem nodup_paths_cur2 {c o : Snapshot} (h : (pathsOf c).Nodup) :
    (pathsOf (cur2 c o)).Nodup := by
  rw [cur2_eq]
  exact (pathsOf_rebuild_sublist _ _).nodup (nodup_paths_cur1 h)

theorem nodup_paths_old2 {c o : Snapshot} (h : (pathsOf o).Nodup) :
    (pathsOf (old2 c o)).Nodup := by
  rw [old2_eq]
  exact (pathsOf_rebuild_sublist _ _).nodup (nodup_paths_old1 h)

theorem nodup_paths_cur3 {c o : Snapshot} (h : (pathsOf c).Nodup) :
    (pathsOf (cur3 c o)).Nodup := by
  rw [cur3_eq]
  exact (pathsOf_rebuild_sublist _ _).nodup (nodup_paths_cur2 h)

theorem nodup_paths_old3 {c o : Snapshot} (h : (pathsOf o).Nodup) :
    (pathsOf (old3 c o)).Nodup := by
  rw [old3_eq]
  exact (pathsOf_rebuild_sublist _ _).nodup (nodup_paths_old2 h)

theorem nodup_keys_cur1 {c o : Snapshot} (h : (keysOf c).Nodup) :
    (keysOf (cur1 c o)).Nodup := by
  rw [cur1_eq]
  exact (keysOf_rebuild_sublist _ _).nodup h

theorem nodup_keys_old1 {c o : Snapshot} (h : (keysOf o).Nodup) :
    (keysOf (old1 c o)).Nodup := by
  rw [old1_eq]
  exact (keysOf_rebuild_sublist _ _).nodup h

theorem nodup_keys_cur2 {c o : Snapshot} (h : (keysOf c).Nodup) :
    (keysOf (cur2 c o)).Nodup := by
  rw [cur2_eq]
  exact (keysOf_rebuild_sublist _ _).nodup (nodup_keys_cur1 h)

theorem nodup_keys_old2 {c o : Snapshot} (h : (keysOf o).Nodup) :
    (keysOf (old2 c o)).Nodup := by
  rw [old2_eq]
  exact (keysOf_rebuild_sublist _ _).nodup (nodup_keys_old1 h)

theorem nodup_keys_cur3 {c o : Snapshot} (h : (keysOf c).Nodup) :
    (keysOf (cur3 c o)).Nodup := by
  rw [cur3_eq]
  exact (keysOf_rebuild_sublist _ _).nodup (nodup_keys_cur2 h)

theorem nodup_keys_old3 {c o : Snapshot} (h : (keysOf o).Nodup) :
    (keysOf (old3 c o)).Nodup := by
  rw [old3_eq]
  exact (keysOf_rebuild_sublist _ _).nodup (nodup_keys_old2 h)

theorem nodup_keys_cur4 {c o : Snapshot} (h : (keysOf c).Nodup) :
    (keysOf (cur4 c o)).Nodup := by
  rw [cur4_eq]
  exact nodup_keys_cur3 h

/-! ### The full run on well-formed inputs -/

theorem residual_keys_disjoint {c o : Snapshot} (hkc : (keysOf c).Nodup)
    (hko : (keysOf o).Nodup) :
    ∀ sha ∈ keysOf (old3 c o), ¬ sha ∈ keysOf (cur3 c o) := by
  intro sha hsha
  exact moves_keys_disjoint (nodup_keys_cur2 hkc) (nodup_keys_old2 hko) hsha

theorem old4_empty {c o : Snapshot} (hkc : (keysOf c).Nodup) (hko : (keysOf o).Nodup) :
    old4 c o = [] :=
  strip_removal_old_empty (residual_keys_disjoint hkc hko)

theorem strip_ok_of_wf {c o : Snapshot} (hkc : (keysOf c).Nodup) (hko : (keysOf o).Nodup)
    (hneo : ∀ e ∈ o, e.2 ≠ []) :
    strip c o = .ok
      { current_stripped := [], old_stripped := [],
        content_changes := cc12 c o, moves := mv3 c o, removals := rm4 c o,
        copies := copiesOf (cur4 c o) o, new := newOf (cur4 c o) o } := by
  rw [strip_eq, old4_empty hkc hko,
    strip_copy_or_new_ok_of_no_trigger (no_trigger_of_empty_old hneo),
    copy_or_new_rebuild_empty (nodup_keys_cur4 hkc)]

theorem keysOf_movesOf_sublist (c o : Snapshot) :
    List.Sublist (keysOf (movesOf c o)) (keysOf o) := by
  apply keysOf_filterMap_sublist
  intro e e' hf
  cases hl : c.lookup e.1 with
  | none =>
    simp only [hl] at hf
    exact Option.noConfusion hf
  | some cps =>
    simp only [hl] at hf
    by_cases hn : min e.2.length cps.length = 0
    · rw [if_pos hn] at hf
      cases hf
    · rw [if_neg hn] at hf
      cases hf
      rfl

/-- C6: Stage 3 pairs positionally.  For a fingerprint in both residuals,
the recorded move list has exactly `min` pairs, its i-th pair is the i-th
baseline path together with the i-th current path, and the residuals keep
exactly the unpaired excess (the `drop min` suffix of the longer side). -/
theorem strip_moves_positional_pairing (c o : Snapshot)
    (hkc : (keysOf c).Nodup) (hko : (keysOf o).Nodup)
    (sha : String) (ops cps : List String)
    (hlo : o.lookup sha = some ops) (hlc : c.lookup sha = some cps)
    (hndo : ops.Nodup) (hndc : cps.Nodup)
    (hne1 : ops ≠ []) (hne2 : cps ≠ []) :
    (((strip_moves c o).2.2.lookup sha).getD []).length = min ops.length cps.length ∧
    (∀ (i : Nat) (a b : String), ops[i]? = some a → cps[i]? = some b →
      (((strip_moves c o).2.2.lookup sha).getD [])[i]? = some (a, b)) ∧
    ((strip_moves c o).2.1.lookup sha =
      if min ops.length cps.length < ops.length
      then some (ops.drop (min ops.length cps.length)) else none) ∧
    ((strip_moves c o).1.lookup sha =
      if min ops.length cps.length < cps.length
      then some (cps.drop (min ops.length cps.length)) else none) := by
  have hn : min ops.length cps.length ≠ 0 := by
    have h1 : 0 < ops.length := List.length_pos.mpr hne1
    have h2 : 0 < cps.length := List.length_pos.mpr hne2
    omega
  have hmem : (sha, (ops.take (min ops.length cps.length)).zip
      (cps.take (min ops.length cps.length))) ∈ movesOf c o :=
    mem_movesOf_iff.mpr ⟨(sha, ops), lookup_mem hlo, cps, hlc, hn, rfl⟩
  have hmv : (strip_moves c o).2.2 = movesOf c o := rfl
  have hlook : (movesOf c o).lookup sha =
      some ((ops.take (min ops.length cps.length)).zip
        (cps.take (min ops.length cps.length))) :=
    mem_lookup_nodup ((keysOf_movesOf_sublist c o).nodup hko) hmem
  have hlen : ((ops.take (min ops.length cps.length)).zip
      (cps.take (min ops.length cps.length))).length = min ops.length cps.length := by
    rw [List.length_zip, take_length_of_min_left, take_length_of_min_right, Nat.min_self]
  refine ⟨?_, ?_, ?_, ?_⟩
  · rw [hmv, hlook]
    exact hlen
  · intro i a b ha hb
    obtain ⟨hia, hga⟩ := List.getElem?_eq_some_iff.mp ha
    obtain ⟨hib, hgb⟩ := List.getElem?_eq_some_iff.mp hb
    have hilt : i < min ops.length cps.length := by omega
    rw [hmv, hlook]
    have hipairs : i < ((ops.take (min ops.length cps.length)).zip
        (cps.take (min ops.length cps.length))).length := by
      rw [hlen]
      exact hilt
    rw [Option.getD_some, List.getElem?_eq_getElem hipairs, List.getElem_zip]
    simp only [List.getElem_take]
    rw [hga, hgb]
  · have hrw : (strip_moves c o).2.1 = rebuild o (fun e p =>
        match c.lookup e.1 with
        | some cps => decide (p ∉ e.2.take (min e.2.length cps.length))
        | none => true) := rfl
    rw [hrw, rebuild_lookup_some hko hlo]
    simp only [hlc]
    rw [filter_not_mem_take hndo]
    by_cases hlt : min ops.length cps.length < ops.length
    · rw [if_pos hlt]
      rw [if_neg]
      simp only [List.isEmpty_iff, List.drop_eq_nil_iff]
      omega
    · rw [if_neg hlt]
      rw [if_pos]
      simp only [List.isEmpty_iff, List.drop_eq_nil_iff]
      omega
  · have hrw : (strip_moves c o).1 = rebuild c (fun e p =>
        match o.lookup e.1 with
        | some ops => decide (p ∉ e.2.take (min ops.length e.2.length))
        | none => true) := rfl
    rw [hrw, rebuild_lookup_some hkc hlc]
    simp only [hlo]
    rw [filter_not_mem_take hndc]
    by_cases hlt : min ops.length cps.length < cps.length
    · rw [if_pos hlt]
      rw [if_neg]
      simp only [List.isEmpty_iff, List.drop_eq_nil_iff]
      omega
    · rw [if_neg hlt]
      rw [if_pos]
      simp only [List.isEmpty_iff, List.drop_eq_nil_iff]
      omega

/-! ## Claim theorems -/

/-- C2 (amended): when some fingerprint of the stage-5 current residual is
also present in the old residual, `strip_copy_or_new` does not produce a
ChangeDescription: it emits a diagnostic naming the first offending
fingerprint together with both path lists (`current[sha]` and `old[sha]`)
and then terminates the run by assertion failure, modelled as
`Except.error (.assertFailure ...)`.  The pristine baseline is assumed to
map every fingerprint to a non-empty path list (true of every index the
program builds); otherwise stage 5's `IndexError` could abort the run at
an earlier entry. -/
theorem strip_copy_or_new_assert_diagnostic (c o oo : Snapshot)
    (e : String × List String)
    (hfind : c.find? (fun e => (o.lookup e.1).isSome) = some e)
    (hkc : (keysOf c).Nodup) (hneoo : ∀ e ∈ oo, e.2 ≠ []) :
    strip_copy_or_new c o oo =
      .error (.assertFailure ⟨e.1, e.2, (o.lookup e.1).getD []⟩) ∧
    c.lookup e.1 = some e.2 ∧ (o.lookup e.1).isSome = true := by
  have hmem := List.mem_of_find?_eq_some hfind
  have hp := List.find?_some hfind
  refine ⟨?_, mem_lookup_nodup hkc hmem, hp⟩
  rw [strip_copy_or_new, findSome?_trigger_of_find? hneoo hfind]

/-- C2 witness: the diagnostic-then-abort behaviour at a concrete input. -/
theorem strip_copy_or_new_assert_diagnostic_witness :
    strip_copy_or_new [("h1", ["a", "x"])] [("h1", ["b"])] [("h1", ["b"])] =
      .error (.assertFailure ⟨"h1", ["a", "x"], ["b"]⟩) :=
  (strip_copy_or_new_assert_diagnostic [("h1", ["a", "x"])] [("h1", ["b"])]
    [("h1", ["b"])] ("h1", ["a", "x"]) rfl (by decide) (by decide)).1

/-- C2 counterexample: for a stage-5 input with the same fingerprint in
both residuals the run aborts (an `AssertionError` in the source) instead
of still producing a result as the claim states. -/
theorem strip_copy_or_new_assert_cex :
    strip_copy_or_new [("h1", ["a"])] [("h1", ["b"])] [("h1", ["b"])] =
      .error (.assertFailure ⟨"h1", ["a"], ["b"]⟩) := rfl

/-- C3 (amended): for baseline `h1 -> [a]` and current `h1 -> [a_copy],
h2 -> [c]`, the full pipeline classifies `a -> a_copy` as a move (stage 3
pairs them positionally before stage 5 ever runs), `c` as new, and reports
no copies at all. -/
theorem copy_vs_new_example :
    strip [("h1", ["a_copy"]), ("h2", ["c"])] [("h1", ["a"])] =
      .ok { moves := [("h1", [("a", "a_copy")])], new := [("h2", ["c"])] } := rfl

/-- C3 counterexample: on the claim's own input the pipeline yields
`copies = []` (and the claimed copies value is not the empty list), so
the claimed `copies = [h1 -> (a, [a_copy])]` is false. -/
theorem copy_vs_new_claim_cex :
    (strip [("h1", ["a_copy"]), ("h2", ["c"])] [("h1", ["a"])]).map
      (fun d => (d.copies, d.new)) = .ok ([], [("h2", ["c"])]) ∧
    ([] : List (String × String × List String)) ≠ [("h1", "a", ["a_copy"])] :=
  ⟨rfl, by decide⟩

/-- C5: every reported removal is rendered against the original
(un-stripped) current snapshot: if the removed path's fingerprint still has
paths there, the line is a duplicate-removal message naming the surviving
path(s) (`current[sha]`); otherwise it is the unqualified removal line. -/
theorem removal_rendering (c o : Snapshot) (lines : List String)
    (d : ChangeDescription) (hcmp : compareSnapshots c o = .ok (lines, d))
    (sha : String) (ps : List String) (p : String)
    (hmem : (sha, ps) ∈ d.removals) (hp : p ∈ ps) :
    (∀ cs : List String, c.lookup sha = some cs →
      (if cs.length = 1
       then ("Duplicated file " ++ p ++ " was removed. Its copy exists at "
         ++ cs.headD "") ∈ lines
       else ("Duplicated file " ++ p ++ " was removed. Its copies exist at "
         ++ joinComma cs) ∈ lines)) ∧
    (c.lookup sha = none → ("File " ++ p ++ " was removed.") ∈ lines) := by
  have hlines : lines = renderReport c d := by
    rw [compareSnapshots] at hcmp
    cases hs : strip c o with
    | error i =>
      rw [hs] at hcmp
      exact Except.noConfusion hcmp
    | ok d' =>
      rw [hs] at hcmp
      injection hcmp with h2
      rw [Prod.mk.injEq] at h2
      rw [← h2.1, h2.2]
  have hsub : ∀ s ∈ renderRemovals c d.removals, s ∈ lines := by
    intro s hs
    rw [hlines, renderReport]
    exact List.mem_append_left _ (List.mem_append_left _ (List.mem_append_right _ hs))
  constructor
  · intro cs hcs
    by_cases h1 : cs.length = 1
    · rw [if_pos h1]
      apply hsub
      rw [renderRemovals, List.mem_flatMap]
      refine ⟨(sha, ps), hmem, ?_⟩
      rw [List.mem_map]
      refine ⟨p, hp, ?_⟩
      simp only [hcs]
      rw [if_pos h1]
    · rw [if_neg h1]
      apply hsub
      rw [renderRemovals, List.mem_flatMap]
      refine ⟨(sha, ps), hmem, ?_⟩
      rw [List.mem_map]
      refine ⟨p, hp, ?_⟩
      simp only [hcs]
      rw [if_neg h1]
  · intro hnone
    apply hsub
    rw [renderRemovals, List.mem_flatMap]
    refine ⟨(sha, ps), hmem, ?_⟩
    rw [List.mem_map]
    refine ⟨p, hp, ?_⟩
    simp only [hnone]

/-- C5 witness: for baseline `h1 -> [a, b]` and current `h1 -> [a]` the
run classifies `b` as a removal of fingerprint h1 and the rendered report
names `a` as the surviving copy. -/
theorem removal_rendering_witness :
    "Duplicated file b was removed. Its copy exists at a" ∈
      ["Duplicated file b was removed. Its copy exists at a"] := by
  have h := (removal_rendering [("h1", ["a"])] [("h1", ["a", "b"])]
    ["Duplicated file b was removed. Its copy exists at a"]
    { removals := [("h1", ["b"])] } rfl "h1" ["b"] "b" (by decide) (by decide)).1
    ["a"] rfl
  rw [if_pos (by decide : ((["a"] : List String).length = 1))] at h
  exact h

/-- C6 witness: positional pairing at a concrete shared fingerprint with
two duplicate paths on each side. -/
theorem strip_moves_positional_pairing_witness :
    (((strip_moves [("abc", ["f3", "f4"])] [("abc", ["f1", "f2"])]).2.2.lookup
      "abc").getD []).length =
      min (["f1", "f2"] : List String).length (["f3", "f4"] : List String).length :=
  (strip_moves_positional_pairing [("abc", ["f3", "f4"])] [("abc", ["f1", "f2"])]
    (by decide) (by decide) "abc" ["f1", "f2"] ["f3", "f4"] rfl rfl
    (by decide) (by decide) (by decide) (by decide)).1

/-- C7: in a successful stage-5 run, a fingerprint of the current residual
whose content exists in the pristine baseline is classified as a copy whose
source is the first path listed for it in the pristine baseline and whose
destinations are all its residual-current paths; a fingerprint with no
trace in the pristine baseline has all its residual-current paths
classified as new. -/
theorem strip_copy_or_new_classification (c o oo : Snapshot)
    (r : Snapshot × Snapshot × List (String × String × List String) × Snapshot)
    (hok : strip_copy_or_new c o oo = .ok r)
    (hkc : (keysOf c).Nodup) (sha : String) (cps : List String)
    (hc : c.lookup sha = some cps) (hcps : cps ≠ []) :
    (∀ (q : String) (rest : List String), oo.lookup sha = some (q :: rest) →
      r.2.2.1.lookup sha = some (q, cps)) ∧
    (oo.lookup sha = none → r.2.2.2.lookup sha = some cps) := by
  have hcopies : r.2.2.1 = copiesOf c oo ∧ r.2.2.2 = newOf c oo := by
    rw [strip_copy_or_new] at hok
    cases hfind : c.findSome? (stage5Trigger o oo) with
    | some err =>
      rw [hfind] at hok
      exact Except.noConfusion hok
    | none =>
      rw [hfind] at hok
      cases hok
      exact ⟨rfl, rfl⟩
  obtain ⟨hcp, hnw⟩ := hcopies
  constructor
  · intro q rest hq
    rw [hcp]
    have hl := copiesOf_lookup_of hkc (lookup_mem hc)
      (show oo.lookup (sha, cps).1 = some (q :: rest) from hq) hcps
    exact hl
  · intro hq
    rw [hnw]
    exact newOf_lookup_of hkc (lookup_mem hc) (by rw [hq]; rfl)

/-- C7 witness: a concrete copy classification (source is the first
pristine-baseline path) and, at a second fingerprint, a new-file
classification. -/
theorem strip_copy_or_new_classification_witness :
    (([], [], [("bcd", "f1", ["f1_copy"])], []) :
      Snapshot × Snapshot × List (String × String × List String) ×
        Snapshot).2.2.1.lookup "bcd" = some ("f1", ["f1_copy"]) :=
  (strip_copy_or_new_classification [("bcd", ["f1_copy"])] []
    [("bcd", ["f1", "f0"])] ([], [], [("bcd", "f1", ["f1_copy"])], [])
    rfl (by decide) "bcd" ["f1_copy"] rfl (by decide)).1 "f1" ["f0"] rfl

/-- C8: reconciling a snapshot with itself yields the empty change
description: stage 1 strips every sha/path pair, so every later category
and both leftover residuals are empty. -/
theorem strip_self_empty (S : Snapshot) (hk : (keysOf S).Nodup) :
    strip S S = .ok {} := by
  have hc1 : cur1 S S = [] := by
    rw [cur1_eq, rebuild, List.filterMap_eq_nil_iff]
    intro e he
    have hfe : e.2.filter (fun x => ! memSnap S e.1 x) = [] := by
      rw [List.filter_eq_nil_iff]
      intro p hp
      have hms : memSnap S e.1 p = true := memSnap_of_entry hk he hp
      simp [hms]
    rw [hfe]
    rfl
  have ho1 : old1 S S = [] := by
    rw [old1_eq, rebuild, List.filterMap_eq_nil_iff]
    intro e he
    have hfe : e.2.filter (fun x => ! memSnap S e.1 x) = [] := by
      rw [List.filter_eq_nil_iff]
      intro p hp
      have hms : memSnap S e.1 p = true := memSnap_of_entry hk he hp
      simp [hms]
    rw [hfe]
    rfl
  have hcc : cc12 S S = [] := by
    rw [cc12_eq, ho1]
    rfl
  have hcur2 : cur2 S S = [] := by
    rw [cur2_eq, hc1]
    rfl
  have hold2 : old2 S S = [] := by
    rw [old2_eq, ho1]
    rfl
  have hmv : mv3 S S = [] := by
    rw [mv3_eq, hold2]
    rfl
  have hcur3 : cur3 S S = [] := by
    rw [cur3_eq, hcur2]
    rfl
  have hold3 : old3 S S = [] := by
    rw [old3_eq, hold2]
    rfl
  have hrm : rm4 S S = [] := by
    rw [rm4_eq, hold3]
    rfl
  have hcur4 : cur4 S S = [] := by
    rw [cur4_eq, hcur3]
  have hold4 : old4 S S = [] := old4_empty hk hk
  rw [strip_eq, hcur4, hold4, hcc, hmv, hrm]
  rfl

/-- C8 witness: the self-reconciliation of a concrete snapshot with
duplicate paths is empty. -/
theorem strip_self_empty_witness :
    strip [("h1", ["a", "b"]), ("h2", ["c"])] [("h1", ["a", "b"]), ("h2", ["c"])] =
      .ok {} :=
  strip_self_empty [("h1", ["a", "b"]), ("h2", ["c"])] (by decide)

theorem bool_eq_false_of_not {b : Bool} (h : ¬ b = true) : b = false := by
  cases b
  · rfl
  · exact absurd rfl h

theorem inContentChanges_iff {d : ChangeDescription} {p : String} :
    inContentChanges d p = true ↔ p ∈ keysOf d.content_changes := by
  rw [inContentChanges, List.any_eq_true]
  constructor
  · rintro ⟨e, he, hb⟩
    rw [decide_eq_true_eq] at hb
    exact List.mem_map.mpr ⟨e, he, hb⟩
  · intro hk
    obtain ⟨v, hv⟩ := mem_keysOf.mp hk
    exact ⟨(p, v), hv, by rw [decide_eq_true_eq]⟩

theorem inMoves_iff {d : ChangeDescription} {p : String} :
    inMoves d p = true ↔
      (∃ m ∈ d.moves, ∃ pr ∈ m.2, pr.1 = p) ∨
      (∃ m ∈ d.moves, ∃ pr ∈ m.2, pr.2 = p) := by
  rw [inMoves, List.any_eq_true]
  constructor
  · rintro ⟨m, hm, hb⟩
    rw [List.any_eq_true] at hb
    obtain ⟨pr, hpr, hor⟩ := hb
    rw [Bool.or_eq_true, decide_eq_true_eq, decide_eq_true_eq] at hor
    rcases hor with h | h
    · exact Or.inl ⟨m, hm, pr, hpr, h⟩
    · exact Or.inr ⟨m, hm, pr, hpr, h⟩
  · rintro (⟨m, hm, pr, hpr, h⟩ | ⟨m, hm, pr, hpr, h⟩)
    · refine ⟨m, hm, ?_⟩
      rw [List.any_eq_true]
      refine ⟨pr, hpr, ?_⟩
      rw [Bool.or_eq_true, decide_eq_true_eq, decide_eq_true_eq]
      exact Or.inl h
    · refine ⟨m, hm, ?_⟩
      rw [List.any_eq_true]
      refine ⟨pr, hpr, ?_⟩
      rw [Bool.or_eq_true, decide_eq_true_eq, decide_eq_true_eq]
      exact Or.inr h

theorem inRemovals_iff {d : ChangeDescription} {p : String} :
    inRemovals d p = true ↔ p ∈ pathsOf d.removals := by
  rw [inRemovals, List.any_eq_true, mem_pathsOf]
  constructor
  · rintro ⟨e, he, hb⟩
    rw [decide_eq_true_eq] at hb
    exact ⟨e, he, hb⟩
  · rintro ⟨e, he, hb⟩
    refine ⟨e, he, ?_⟩
    rw [decide_eq_true_eq]
    exact hb

theorem inNew_iff {d : ChangeDescription} {p : String} :
    inNew d p = true ↔ p ∈ pathsOf d.new := by
  rw [inNew, List.any_eq_true, mem_pathsOf]
  constructor
  · rintro ⟨e, he, hb⟩
    rw [decide_eq_true_eq] at hb
    exact ⟨e, he, hb⟩
  · rintro ⟨e, he, hb⟩
    refine ⟨e, he, ?_⟩
    rw [decide_eq_true_eq]
    exact hb

theorem inCopies_iff {d : ChangeDescription} {p : String} :
    inCopies d p = true ↔ ∃ m ∈ d.copies, p ∈ m.2.2 := by
  rw [inCopies, List.any_eq_true]
  constructor
  · rintro ⟨e, he, hb⟩
    rw [decide_eq_true_eq] at hb
    exact ⟨e, he, hb⟩
  · rintro ⟨e, he, hb⟩
    refine ⟨e, he, ?_⟩
    rw [decide_eq_true_eq]
    exact hb

/-- C4: on well-formed inputs the `assert False` branch of stage 5 is
unreachable: after stages 1-4 no fingerprint remains in both residuals
(indeed the old residual is empty), so `strip` can never abort through the
assertion branch, and both leftover residuals of any returned
ChangeDescription are empty.  When moreover the baseline maps every
fingerprint to a non-empty path list (as every index the program builds
does), `strip` does return a ChangeDescription, with both leftover
residuals empty; with an empty baseline path list `strip` can instead
abort through stage 5's distinct `IndexError` branch at
`old_orig[sha][0]`. -/
theorem stage5_assert_unreachable (c o : Snapshot)
    (hkc : (keysOf c).Nodup) (hko : (keysOf o).Nodup)
    (hpc : (pathsOf c).Nodup) (hpo : (pathsOf o).Nodup) :
    (∀ sha : String, sha ∈ keysOf (old4 c o) → ¬ sha ∈ keysOf (cur4 c o)) ∧
    (∀ info : AssertInfo, strip c o ≠ .error (.assertFailure info)) ∧
    (∀ d : ChangeDescription, strip c o = .ok d →
      d.current_stripped = [] ∧ d.old_stripped = []) ∧
    ((∀ e ∈ o, e.2 ≠ []) → strip c o = .ok
      { current_stripped := [], old_stripped := [],
        content_changes := cc12 c o, moves := mv3 c o, removals := rm4 c o,
        copies := copiesOf (cur4 c o) o, new := newOf (cur4 c o) o }) := by
  have ho4 := old4_empty hkc hko
  refine ⟨?_, ?_, ?_, ?_⟩
  · intro sha hsha
    rw [ho4] at hsha
    simp [keysOf] at hsha
  · intro info hbad
    rw [strip_eq, ho4] at hbad
    cases hf : (cur4 c o).findSome? (stage5Trigger [] o) with
    | none =>
      rw [strip_copy_or_new, hf] at hbad
      exact Except.noConfusion hbad
    | some err =>
      obtain ⟨a, hamem, ha⟩ := List.exists_of_findSome?_eq_some hf
      rw [strip_copy_or_new, hf] at hbad
      injection hbad with h
      rw [h] at ha
      exact trigger_empty_old_not_assert o a info ha
  · intro d hd
    have h2 := strip_ok_inv hd
    constructor
    · rw [h2]
      exact copy_or_new_rebuild_empty (nodup_keys_cur4 hkc)
    · rw [h2]
      exact ho4
  · intro hneo
    exact strip_ok_of_wf hkc hko hneo

/-- C4 witness: the full run of a concrete well-formed pair (baseline with
no empty path list) returns a result with both leftover residuals empty. -/
theorem stage5_assert_unreachable_witness :
    strip
      [("bcd", ["f3"]), ("sha1", ["d1/f1"]), ("sha3", ["f2"]),
        ("sha4", ["f4", "f5", "f6"])]
      [("sha1", ["f1"]), ("sha2", ["f2"]), ("sha4", ["f4", "f5"]),
        ("sha5", ["f7"])] = .ok
      { current_stripped := [], old_stripped := [],
        content_changes := cc12
          [("bcd", ["f3"]), ("sha1", ["d1/f1"]), ("sha3", ["f2"]),
            ("sha4", ["f4", "f5", "f6"])]
          [("sha1", ["f1"]), ("sha2", ["f2"]), ("sha4", ["f4", "f5"]),
            ("sha5", ["f7"])],
        moves := mv3
          [("bcd", ["f3"]), ("sha1", ["d1/f1"]), ("sha3", ["f2"]),
            ("sha4", ["f4", "f5", "f6"])]
          [("sha1", ["f1"]), ("sha2", ["f2"]), ("sha4", ["f4", "f5"]),
            ("sha5", ["f7"])],
        removals := rm4
          [("bcd", ["f3"]), ("sha1", ["d1/f1"]), ("sha3", ["f2"]),
            ("sha4", ["f4", "f5", "f6"])]
          [("sha1", ["f1"]), ("sha2", ["f2"]), ("sha4", ["f4", "f5"]),
            ("sha5", ["f7"])],
        copies := copiesOf
          (cur4
            [("bcd", ["f3"]), ("sha1", ["d1/f1"]), ("sha3", ["f2"]),
              ("sha4", ["f4", "f5", "f6"])]
            [("sha1", ["f1"]), ("sha2", ["f2"]), ("sha4", ["f4", "f5"]),
              ("sha5", ["f7"])])
          [("sha1", ["f1"]), ("sha2", ["f2"]), ("sha4", ["f4", "f5"]),
            ("sha5", ["f7"])],
        new := newOf
          (cur4
            [("bcd", ["f3"]), ("sha1", ["d1/f1"]), ("sha3", ["f2"]),
              ("sha4", ["f4", "f5", "f6"])]
            [("sha1", ["f1"]), ("sha2", ["f2"]), ("sha4", ["f4", "f5"]),
              ("sha5", ["f7"])])
          [("sha1", ["f1"]), ("sha2", ["f2"]), ("sha4", ["f4", "f5"]),
            ("sha5", ["f7"])] } :=
  (stage5_assert_unreachable
    [("bcd", ["f3"]), ("sha1", ["d1/f1"]), ("sha3", ["f2"]),
      ("sha4", ["f4", "f5", "f6"])]
    [("sha1", ["f1"]), ("sha2", ["f2"]), ("sha4", ["f4", "f5"]),
      ("sha5", ["f7"])]
    (by decide) (by decide) (by decide) (by decide)).2.2.2 (by decide)

/-- C10: no stage ever emits a fingerprint with an empty path list: in the
ChangeDescription of a successful run on inputs whose path lists are all
non-empty, every entry of the leftover residuals, moves, removals and new
maps to a non-empty list, and every copies entry has a non-empty
destination list (content_changes values are fixed sha pairs). -/
theorem strip_no_empty_lists (c o : Snapshot)
    (hkc : (keysOf c).Nodup) (hko : (keysOf o).Nodup)
    (hnec : ∀ e ∈ c, e.2 ≠ []) (hneo : ∀ e ∈ o, e.2 ≠ [])
    (d : ChangeDescription) (hd : strip c o = .ok d) :
    (∀ e ∈ d.current_stripped, e.2 ≠ []) ∧
    (∀ e ∈ d.old_stripped, e.2 ≠ []) ∧
    (∀ e ∈ d.moves, e.2 ≠ []) ∧
    (∀ e ∈ d.removals, e.2 ≠ []) ∧
    (∀ e ∈ d.copies, e.2.2 ≠ []) ∧
    (∀ e ∈ d.new, e.2 ≠ []) := by
  have h2 := strip_ok_inv hd
  subst h2
  refine ⟨?_, ?_, ?_, ?_, ?_, ?_⟩
  · intro e he
    have he' : e ∈ rebuild (cur4 c o) (fun e p =>
        ! (decide (p ∈ ((newOf (cur4 c o) o).lookup e.1).getD []) ||
           decide (p ∈ (((copiesOf (cur4 c o) o).lookup e.1).map
             Prod.snd).getD []))) := he
    exact rebuild_nonempty he'
  · intro e he
    have he' : e ∈ old4 c o := he
    rw [old4_empty hkc hko] at he'
    simp at he'
  · intro e he
    obtain ⟨e', he', cps, hl, hn, rfl⟩ := mem_movesOf_iff.mp he
    intro hnil
    have hlen := congrArg List.length hnil
    rw [List.length_zip, take_length_of_min_left, take_length_of_min_right,
      Nat.min_self, List.length_nil] at hlen
    exact hn hlen
  · intro e he
    have he' : e ∈ rebuild (old3 c o) (fun e _ => ((cur3 c o).lookup e.1).isNone) := he
    exact rebuild_nonempty he'
  · intro e he
    obtain ⟨e', he', ops, hl, hne, rfl⟩ := copiesOf_mem_iff.mp he
    exact hne
  · intro e he
    obtain ⟨he', hcond⟩ := newOf_key_mem.mp he
    have he3 : e ∈ rebuild (cur2 c o) (fun e p =>
        match (old2 c o).lookup e.1 with
        | some ops => decide (p ∉ e.2.take (min ops.length e.2.length))
        | none => true) := he'
    exact rebuild_nonempty he3

/-- C10 witness: in a concrete full run the moves entry carries a
non-empty pair list. -/
theorem strip_no_empty_lists_witness :
    (("sha1", [("f1", "d1/f1")]) : String × List (String × String)).2 ≠ [] :=
  (strip_no_empty_lists
    [("bcd", ["f3"]), ("sha1", ["d1/f1"]), ("sha3", ["f2"]),
      ("sha4", ["f4", "f5", "f6"])]
    [("sha1", ["f1"]), ("sha2", ["f2"]), ("sha4", ["f4", "f5"]),
      ("sha5", ["f7"])]
    (by decide) (by decide) (by decide) (by decide)
    { content_changes := [("f2", "sha2", "sha3")],
      moves := [("sha1", [("f1", "d1/f1")])],
      removals := [("sha5", ["f7"])],
      copies := [("sha4", "f4", ["f6"])],
      new := [("bcd", ["f3"])] }
    rfl).2.2.1 ("sha1", [("f1", "d1/f1")]) (by decide)

/-- C1: partition completeness: in a full pipeline run on well-formed
snapshots, every path present in either snapshot is claimed by exactly one
of the six categories: unchanged (silently stripped), content change, move
(either side of a pair), removal, copy destination, or new. -/
theorem partition_completeness (c o : Snapshot)
    (hkc : (keysOf c).Nodup) (hko : (keysOf o).Nodup)
    (hpc : (pathsOf c).Nodup) (hpo : (pathsOf o).Nodup)
    (d : ChangeDescription) (hd : strip c o = .ok d)
    (p : String) (hp : p ∈ pathsOf c ∨ p ∈ pathsOf o) :
    categoryCount c o d p = 1 := by
  have h2 := strip_ok_inv hd
  have hcc_d : d.content_changes = cc12 c o := by rw [h2]
  have hmv_d : d.moves = mv3 c o := by rw [h2]
  have hrm_d : d.removals = rm4 c o := by rw [h2]
  have hcp_d : d.copies = copiesOf (cur4 c o) o := by rw [h2]
  have hnw_d : d.new = newOf (cur4 c o) o := by rw [h2]
  -- inclusion chains between residual path sets
  have hsubO1 : ∀ q : String, q ∈ pathsOf (old1 c o) → q ∈ pathsOf o := by
    intro q hq
    rw [old1_eq] at hq
    exact (pathsOf_rebuild_sublist _ _).subset hq
  have hsubO2 : ∀ q : String, q ∈ pathsOf (old2 c o) → q ∈ pathsOf (old1 c o) := by
    intro q hq
    rw [old2_eq] at hq
    exact (pathsOf_rebuild_sublist _ _).subset hq
  have hsubO3 : ∀ q : String, q ∈ pathsOf (old3 c o) → q ∈ pathsOf (old2 c o) := by
    intro q hq
    rw [old3_eq] at hq
    exact (pathsOf_rebuild_sublist _ _).subset hq
  have hsubC1 : ∀ q : String, q ∈ pathsOf (cur1 c o) → q ∈ pathsOf c := by
    intro q hq
    rw [cur1_eq] at hq
    exact (pathsOf_rebuild_sublist _ _).subset hq
  have hsubC2 : ∀ q : String, q ∈ pathsOf (cur2 c o) → q ∈ pathsOf (cur1 c o) := by
    intro q hq
    rw [cur2_eq] at hq
    exact (pathsOf_rebuild_sublist _ _).subset hq
  have hsubC3 : ∀ q : String, q ∈ pathsOf (cur3 c o) → q ∈ pathsOf (cur2 c o) := by
    intro q hq
    rw [cur3_eq] at hq
    exact (pathsOf_rebuild_sublist _ _).subset hq
  -- destinations and new paths live in the stage-4 current residual
  have hcp_paths : ∀ q : String, (∃ m ∈ d.copies, q ∈ m.2.2) → q ∈ pathsOf (cur3 c o) := by
    intro q hq
    rw [hcp_d] at hq
    obtain ⟨e, he, hqe, _⟩ := copy_dest_iff.mp hq
    rw [← cur4_eq]
    exact mem_pathsOf_of_mem he hqe
  have hnw_paths : ∀ q : String, q ∈ pathsOf d.new → q ∈ pathsOf (cur3 c o) := by
    intro q hq
    rw [hnw_d] at hq
    obtain ⟨e, he, hqe, _⟩ := mem_pathsOf_newOf_iff.mp hq
    rw [← cur4_eq]
    exact mem_pathsOf_of_mem he hqe
  have hrm_paths : ∀ q : String, q ∈ pathsOf d.removals → q ∈ pathsOf (old3 c o) := by
    intro q hq
    rw [hrm_d] at hq
    exact (mem_strip_removal_rm_iff (residual_keys_disjoint hkc hko)).mp hq
  have hmvL_paths : ∀ q : String,
      (∃ m ∈ d.moves, ∃ pr ∈ m.2, pr.1 = q) → q ∈ pathsOf (old2 c o) := by
    intro q hq
    rw [hmv_d] at hq
    exact move_left_mem_paths hq
  have hmvR_paths : ∀ q : String,
      (∃ m ∈ d.moves, ∃ pr ∈ m.2, pr.2 = q) → q ∈ pathsOf (cur2 c o) := by
    intro q hq
    rw [hmv_d] at hq
    exact move_right_mem_paths hq
  have hcc_both : ((cc12 c o).lookup p).isSome = true →
      p ∈ pathsOf (old1 c o) ∧ p ∈ pathsOf (cur1 c o) := by
    intro hs
    exact cc_isSome_both (nodup_paths_old1 hpo) (nodup_paths_cur1 hpc) hs
  by_cases hu : unchangedIn c o p = true
  · -- case: the path is unchanged; every reported category is excluded
    have hnO1 : ¬ p ∈ pathsOf (old1 c o) := by
      intro hmem
      have hx := (mem_old1_iff hpo).mp hmem
      rw [hx.2] at hu
      exact Bool.noConfusion hu
    have hnC1 : ¬ p ∈ pathsOf (cur1 c o) := by
      intro hmem
      have hx := (mem_cur1_iff hpc hkc hko).mp hmem
      rw [hx.2] at hu
      exact Bool.noConfusion hu
    have hb2 : inContentChanges d p = false := by
      apply bool_eq_false_of_not
      intro hin
      have hk := inContentChanges_iff.mp hin
      rw [hcc_d] at hk
      exact hnO1 (hcc_both ((lookup_isSome_iff _ _).mpr hk)).1
    have hb3 : inMoves d p = false := by
      apply bool_eq_false_of_not
      intro hin
      rcases inMoves_iff.mp hin with h | h
      · exact hnO1 (hsubO2 p (hmvL_paths p h))
      · exact hnC1 (hsubC2 p (hmvR_paths p h))
    have hb4 : inRemovals d p = false := by
      apply bool_eq_false_of_not
      intro hin
      exact hnO1 (hsubO2 p (hsubO3 p (hrm_paths p (inRemovals_iff.mp hin))))
    have hb5 : inCopies d p = false := by
      apply bool_eq_false_of_not
      intro hin
      exact hnC1 (hsubC2 p (hsubC3 p (hcp_paths p (inCopies_iff.mp hin))))
    have hb6 : inNew d p = false := by
      apply bool_eq_false_of_not
      intro hin
      exact hnC1 (hsubC2 p (hsubC3 p (hnw_paths p (inNew_iff.mp hin))))
    rw [categoryCount, hu, hb2, hb3, hb4, hb5, hb6]
    rfl
  · have hb1 : unchangedIn c o p = false := bool_eq_false_of_not hu
    by_cases hcs : ((cc12 c o).lookup p).isSome = true
    · -- case: the path is a recorded content change
      have hb2 : inContentChanges d p = true := by
        rw [inContentChanges_iff, hcc_d]
        exact (lookup_isSome_iff _ _).mp hcs
      have hnO2 : ¬ p ∈ pathsOf (old2 c o) := by
        intro hmem
        have hx := mem_old2_iff.mp hmem
        have hn := Option.isNone_iff_eq_none.mp hx.2
        rw [hn] at hcs
        exact Bool.noConfusion hcs
      have hnC2 : ¬ p ∈ pathsOf (cur2 c o) := by
        intro hmem
        have hx := mem_cur2_iff.mp hmem
        have hn := Option.isNone_iff_eq_none.mp hx.2
        rw [hn] at hcs
        exact Bool.noConfusion hcs
      have hb3 : inMoves d p = false := by
        apply bool_eq_false_of_not
        intro hin
        rcases inMoves_iff.mp hin with h | h
        · exact hnO2 (hmvL_paths p h)
        · exact hnC2 (hmvR_paths p h)
      have hb4 : inRemovals d p = false := by
        apply bool_eq_false_of_not
        intro hin
        exact hnO2 (hsubO3 p (hrm_paths p (inRemovals_iff.mp hin)))
      have hb5 : inCopies d p = false := by
        apply bool_eq_false_of_not
        intro hin
        exact hnC2 (hsubC3 p (hcp_paths p (inCopies_iff.mp hin)))
      have hb6 : inNew d p = false := by
        apply bool_eq_false_of_not
        intro hin
        exact hnC2 (hsubC3 p (hnw_paths p (inNew_iff.mp hin)))
      rw [categoryCount, hb1, hb2, hb3, hb4, hb5, hb6]
      rfl
    · -- case: neither unchanged nor a content change
      have hnone : (cc12 c o).lookup p = none := by
        cases hl : (cc12 c o).lookup p with
        | none => rfl
        | some v =>
          rw [hl] at hcs
          exact absurd rfl hcs
      have hisNone : ((cc12 c o).lookup p).isNone = true := by
        rw [hnone]
        rfl
      have hb2 : inContentChanges d p = false := by
        apply bool_eq_false_of_not
        intro hin
        have hk := inContentChanges_iff.mp hin
        rw [hcc_d] at hk
        exact hcs ((lookup_isSome_iff _ _).mpr hk)
      by_cases hpcm : p ∈ pathsOf c
      · by_cases hpom : p ∈ pathsOf o
        · -- the path is in both snapshots under different shas: a content
          -- change must have been recorded, contradiction
          exfalso
          have hO1 : p ∈ pathsOf (old1 c o) := (mem_old1_iff hpo).mpr ⟨hpom, hb1⟩
          have hC1 : p ∈ pathsOf (cur1 c o) := (mem_cur1_iff hpc hkc hko).mpr ⟨hpcm, hb1⟩
          obtain ⟨e, he, hpe⟩ := mem_pathsOf.mp hO1
          obtain ⟨e', he', hpe'⟩ := mem_pathsOf.mp hC1
          have hne : e.1 ≠ e'.1 := by
            intro heq
            have heO : e ∈ rebuild o (fun e x => ! memSnap c e.1 x) := by
              rw [← old1_eq]
              exact he
            obtain ⟨eo, heo, h1o, h2o, _⟩ := mem_rebuild_iff.mp heO
            have heC : e' ∈ rebuild c (fun e x => ! memSnap o e.1 x) := by
              rw [← cur1_eq]
              exact he'
            obtain ⟨ec, hec, h1c, h2c, _⟩ := mem_rebuild_iff.mp heC
            have hpf : p ∈ eo.2.filter (fun x => ! memSnap c eo.1 x) := by
              rw [← h2o]
              exact hpe
            have hnm := (List.mem_filter.mp hpf).2
            have hpec : p ∈ ec.2 := by
              have hx : p ∈ ec.2.filter (fun x => ! memSnap o ec.1 x) := by
                rw [← h2c]
                exact hpe'
              exact (List.mem_filter.mp hx).1
            have hms : memSnap c ec.1 p = true := memSnap_of_entry hkc hec hpec
            have hkeys : eo.1 = ec.1 := by rw [← h1o, heq, h1c]
            rw [← hkeys] at hms
            rw [hms] at hnm
            exact Bool.noConfusion hnm
          have hsome := cc_isSome_of_two_shas (nodup_paths_old1 hpo)
            (nodup_paths_cur1 hpc) he he' hpe hpe' hne
          have hsome2 : ((cc12 c o).lookup p).isSome = true := hsome
          rw [hnone] at hsome2
          exact Bool.noConfusion hsome2
        · -- the path exists only in the current snapshot
          have hC1 : p ∈ pathsOf (cur1 c o) := (mem_cur1_iff hpc hkc hko).mpr ⟨hpcm, hb1⟩
          have hC2 : p ∈ pathsOf (cur2 c o) := mem_cur2_iff.mpr ⟨hC1, hisNone⟩
          have hb4 : inRemovals d p = false := by
            apply bool_eq_false_of_not
            intro hin
            exact hpom (hsubO1 p (hsubO2 p (hsubO3 p (hrm_paths p (inRemovals_iff.mp hin)))))
          by_cases hmv : ∃ m ∈ d.moves, ∃ pr ∈ m.2, pr.2 = p
          · have hb3 : inMoves d p = true := inMoves_iff.mpr (Or.inr hmv)
            have hnc3 : ¬ p ∈ pathsOf (cur3 c o) := by
              intro hmem
              have hmem' : p ∈ pathsOf (strip_moves (cur2 c o) (old2 c o)).1 := hmem
              have hx := (mem_strip_moves_cur_iff (nodup_paths_cur2 hpc)
                (nodup_keys_cur2 hkc) (nodup_keys_old2 hko)).mp hmem'
              apply hx.2
              rw [hmv_d] at hmv
              exact hmv
            have hb5 : inCopies d p = false := by
              apply bool_eq_false_of_not
              intro hin
              exact hnc3 (hcp_paths p (inCopies_iff.mp hin))
            have hb6 : inNew d p = false := by
              apply bool_eq_false_of_not
              intro hin
              exact hnc3 (hnw_paths p (inNew_iff.mp hin))
            rw [categoryCount, hb1, hb2, hb3, hb4, hb5, hb6]
            rfl
          · have hmv' : ¬ ∃ m ∈ mv3 c o, ∃ pr ∈ m.2, pr.2 = p := by
              rw [← hmv_d]
              exact hmv
            have hC3 : p ∈ pathsOf (cur3 c o) := by
              have hx := (mem_strip_moves_cur_iff (nodup_paths_cur2 hpc)
                (nodup_keys_cur2 hkc) (nodup_keys_old2 hko)).mpr ⟨hC2, hmv'⟩
              exact hx
            have hb3 : inMoves d p = false := by
              apply bool_eq_false_of_not
              intro hin
              rcases inMoves_iff.mp hin with h | h
              · exact hpom (hsubO1 p (hsubO2 p (hmvL_paths p h)))
              · exact hmv h
            have hC4 : p ∈ pathsOf (cur4 c o) := by
              rw [cur4_eq]
              exact hC3
            have hndc4 : (pathsOf (cur4 c o)).Nodup := by
              rw [cur4_eq]
              exact nodup_paths_cur3 hpc
            obtain ⟨e, he, hpe⟩ := mem_pathsOf.mp hC4
            by_cases hoo : (o.lookup e.1).isSome = true
            · have hb5 : inCopies d p = true := by
                rw [inCopies_iff, hcp_d]
                exact copy_dest_iff.mpr ⟨e, he, hpe, hoo⟩
              have hb6 : inNew d p = false := by
                apply bool_eq_false_of_not
                intro hin
                have hx := inNew_iff.mp hin
                rw [hnw_d] at hx
                obtain ⟨e'', he'', hpe'', hcond⟩ := mem_pathsOf_newOf_iff.mp hx
                have heq := entry_unique hndc4 he he'' hpe hpe''
                rw [← heq] at hcond
                have hn := Option.isNone_iff_eq_none.mp hcond
                rw [hn] at hoo
                exact Bool.noConfusion hoo
              rw [categoryCount, hb1, hb2, hb3, hb4, hb5, hb6]
              rfl
            · have hoon : (o.lookup e.1).isNone = true := by
                cases hl : o.lookup e.1 with
                | none => rfl
                | some v =>
                  rw [hl] at hoo
                  exact absurd rfl hoo
              have hb6 : inNew d p = true := by
                rw [inNew_iff, hnw_d]
                exact mem_pathsOf_newOf_iff.mpr ⟨e, he, hpe, hoon⟩
              have hb5 : inCopies d p = false := by
                apply bool_eq_false_of_not
                intro hin
                have hx := inCopies_iff.mp hin
                rw [hcp_d] at hx
                obtain ⟨e'', he'', hpe'', hcond⟩ := copy_dest_iff.mp hx
                have heq := entry_unique hndc4 he he'' hpe hpe''
                rw [← heq] at hcond
                exact hoo hcond
              rw [categoryCount, hb1, hb2, hb3, hb4, hb5, hb6]
              rfl
      · -- the path exists only in the old snapshot
        have hpom : p ∈ pathsOf o := hp.resolve_left hpcm
        have hO1 : p ∈ pathsOf (old1 c o) := (mem_old1_iff hpo).mpr ⟨hpom, hb1⟩
        have hO2 : p ∈ pathsOf (old2 c o) := mem_old2_iff.mpr ⟨hO1, hisNone⟩
        have hb5 : inCopies d p = false := by
          apply bool_eq_false_of_not
          intro hin
          exact hpcm (hsubC1 p (hsubC2 p (hsubC3 p (hcp_paths p (inCopies_iff.mp hin)))))
        have hb6 : inNew d p = false := by
          apply bool_eq_false_of_not
          intro hin
          exact hpcm (hsubC1 p (hsubC2 p (hsubC3 p (hnw_paths p (inNew_iff.mp hin)))))
        by_cases hmv : ∃ m ∈ d.moves, ∃ pr ∈ m.2, pr.1 = p
        · have hb3 : inMoves d p = true := inMoves_iff.mpr (Or.inl hmv)
          have hno3 : ¬ p ∈ pathsOf (old3 c o) := by
            intro hmem
            have hmem' : p ∈ pathsOf (strip_moves (cur2 c o) (old2 c o)).2.1 := hmem
            have hx := (mem_strip_moves_old_iff (nodup_paths_old2 hpo)).mp hmem'
            apply hx.2
            rw [hmv_d] at hmv
            exact hmv
          have hb4 : inRemovals d p = false := by
            apply bool_eq_false_of_not
            intro hin
            exact hno3 (hrm_paths p (inRemovals_iff.mp hin))
          rw [categoryCount, hb1, hb2, hb3, hb4, hb5, hb6]
          rfl
        · have hmv' : ¬ ∃ m ∈ mv3 c o, ∃ pr ∈ m.2, pr.1 = p := by
            rw [← hmv_d]
            exact hmv
          have hO3 : p ∈ pathsOf (old3 c o) := by
            have hx := (mem_strip_moves_old_iff (nodup_paths_old2 hpo)).mpr ⟨hO2, hmv'⟩
            exact hx
          have hb4 : inRemovals d p = true := by
            rw [inRemovals_iff, hrm_d]
            exact (mem_strip_removal_rm_iff (residual_keys_disjoint hkc hko)).mpr hO3
          have hb3 : inMoves d p = false := by
            apply bool_eq_false_of_not
            intro hin
            rcases inMoves_iff.mp hin with h | h
            · exact hmv h
            · exact hpcm (hsubC1 p (hsubC2 p (hmvR_paths p h)))
          rw [categoryCount, hb1, hb2, hb3, hb4, hb5, hb6]
          rfl

/-- C1 witness: in a concrete full run the content-changed path f2 is
claimed by exactly one category. -/
theorem partition_completeness_witness :
    categoryCount
      [("bcd", ["f3"]), ("sha1", ["d1/f1"]), ("sha3", ["f2"]),
        ("sha4", ["f4", "f5", "f6"])]
      [("sha1", ["f1"]), ("sha2", ["f2"]), ("sha4", ["f4", "f5"]),
        ("sha5", ["f7"])]
      { content_changes := [("f2", "sha2", "sha3")],
        moves := [("sha1", [("f1", "d1/f1")])],
        removals := [("sha5", ["f7"])],
        copies := [("sha4", "f4", ["f6"])],
        new := [("bcd", ["f3"])] }
      "f2" = 1 :=
  partition_completeness
    [("bcd", ["f3"]), ("sha1", ["d1/f1"]), ("sha3", ["f2"]),
      ("sha4", ["f4", "f5", "f6"])]
    [("sha1", ["f1"]), ("sha2", ["f2"]), ("sha4", ["f4", "f5"]),
      ("sha5", ["f7"])]
    (by decide) (by decide) (by decide) (by decide)
    { content_changes := [("f2", "sha2", "sha3")],
      moves := [("sha1", [("f1", "d1/f1")])],
      removals := [("sha5", ["f7"])],
      copies := [("sha4", "f4", ["f6"])],
      new := [("bcd", ["f3"])] }
    rfl "f2" (by decide)
